import Mathlib

/-!
Note summarisation pipeline of the notes server.

Shallow embedding of `chunkContent` and `getSummary` from
`src/server/routes/notes.js`, followed by the properties of the
specification that concern them.

Conventions of the embedding.

* A JavaScript string is the list of its UTF-16 code units, so that
  `.length`, `split`, `trim` and the regular expressions act on the same
  positions as in the source.
* A JavaScript exception is an explicit `throws` outcome, a loop that does
  not end is an explicit `diverges` outcome.
* The summarisation endpoint is a parameter: a function that gives, for the
  k-th call and the text sent, what `axios.post` produces.
-/

namespace NotesApp

/-! ## JavaScript strings -/

/-- A JavaScript string, as the list of its UTF-16 code units. -/
abbrev JSString := List Nat

/-- Code units of one Unicode scalar value: itself in the basic plane, a
surrogate pair above it. -/
def utf16Char (c : Char) : List Nat :=
  if c.toNat < 65536 then [c.toNat]
  else [55296 + (c.toNat - 65536) / 1024, 56320 + (c.toNat - 65536) % 1024]

/-- The JavaScript string written as a Lean string literal. -/
def utf16 (s : String) : JSString :=
  s.toList.flatMap utf16Char

/-- Code unit of the space character. -/
abbrev space : Nat := 32

/-- Code unit of the full stop. -/
abbrev dot : Nat := 46

/-- The characters that `String.prototype.trim` strips and that `\s` matches
in a regular expression: ECMAScript WhiteSpace and LineTerminator. -/
def isWhitespace (c : Nat) : Bool :=
  c = 9 || c = 10 || c = 11 || c = 12 || c = 13 || c = 32 || c = 160 ||
  c = 5760 || (8192 ≤ c && c ≤ 8202) || c = 8232 || c = 8233 || c = 8239 ||
  c = 8287 || c = 12288 || c = 65279

/-- The method `s.trim()`. -/
def trim (s : JSString) : JSString :=
  ((s.dropWhile isWhitespace).reverse.dropWhile isWhitespace).reverse

/-- Truthiness of a string value: every string but the empty one. -/
def truthy (s : JSString) : Bool :=
  !s.isEmpty

/-- Auxiliary of `split`: puts a code unit in front of the first piece. -/
def pushFront (c : Nat) : List JSString → List JSString
  | [] => [[c]]
  | w :: ws => (c :: w) :: ws

/-- The method `s.split(sep)` for a separator of one code unit: the pieces
between the occurrences of `sep`, empty pieces included. -/
def split (sep : Nat) : JSString → List JSString
  | [] => [[]]
  | c :: cs => if c = sep then [] :: split sep cs else pushFront c (split sep cs)

/-- The method `parts.join(sep)`. -/
def join (sep : JSString) (parts : List JSString) : JSString :=
  List.intercalate sep parts

/-- The method `xs.slice(start, stop)` for non-negative integer bounds. -/
def slice {α : Type} (xs : List α) (start stop : Nat) : List α :=
  (xs.drop start).take (stop - start)

/-! ## chunkContent -/

/-- The `for` loop of `chunkContent`, `i` being the loop variable and
`chunks` the array built so far. Each unit of `fuel` pays one iteration;
`none` means that the fuel ran out before the loop condition failed. -/
def chunkLoop (words : List JSString) (maxWords : Nat) :
    Nat → Nat → List JSString → Option (List JSString)
  | 0, i, chunks => if i < words.length then none else some chunks
  | fuel + 1, i, chunks =>
    if i < words.length then
      let chunk := join [space] (slice words i (i + maxWords))
      chunkLoop words maxWords fuel (i + maxWords)
        (if truthy (trim chunk) then chunks ++ [chunk] else chunks)
    else some chunks

/-- The function `chunkContent(content, maxWords)` for a string `content`
and a natural number `maxWords`. The loop gets one unit of fuel per word,
which is enough whenever `maxWords` is positive; with `maxWords = 0` the
source loop never ends and the result here is `none`. -/
def chunkContent (content : JSString) (maxWords : Nat) : Option (List JSString) :=
  let words := split space content
  match chunkLoop words maxWords words.length 0 [] with
  | none => none
  | some chunks => some (if chunks.length > 0 then chunks else [content])

/-! ## getSummary -/

/-- Exceptions that the code of `getSummary` can raise. -/
inductive JSError
  | typeError
  | axiosError
  deriving DecidableEq, Repr

/-- How the evaluation of a piece of JavaScript ends. -/
inductive Outcome (α : Type)
  | returns (value : α)
  | throws (err : JSError)
  | diverges
  deriving DecidableEq, Repr

/-- The argument `content` of `getSummary`: a string, or any other value
that a JSON request body can hold (or `undefined`). -/
inductive JSValue
  | string (s : JSString)
  | other
  deriving DecidableEq, Repr

/-- What `await axios.post(...)` produces for one chunk. -/
inductive Reply
  /-- The promise rejects: network failure or a status outside 2xx. -/
  | rejected
  /-- A response whose `data` is `undefined` or `null`. -/
  | noData
  /-- A response whose `data[0]` is `undefined` or `null`. -/
  | noEntry
  /-- A response whose `data[0]` is an object; `summary_text` is its field of
  that name, a string as the interface of the endpoint has it, and `none`
  when the field is missing. -/
  | entry (summary_text : Option JSString)
  deriving DecidableEq, Repr

/-- The summarisation endpoint: the reply to the k-th call of one run of
`getSummary`, given the text sent as `inputs`. -/
abbrev Endpoint := Nat → JSString → Reply

/-- The two statements `const response = await axios.post(...)` and
`const summary = response.data[0]?.summary_text || ''`. -/
def fetchSummary (reply : Reply) : Except JSError JSString :=
  match reply with
  | .rejected => .error .axiosError
  | .noData => .error .typeError
  | .noEntry => .ok []
  | .entry none => .ok []
  | .entry (some text) => .ok text

/-- The loop `for (const chunk of chunks)` of `getSummary`: `k` counts the
calls made so far and `summaries` is the array built so far. -/
def fetchLoop (endpoint : Endpoint) :
    Nat → List JSString → List JSString → Except JSError (List JSString)
  | _, [], summaries => .ok summaries
  | k, chunk :: rest, summaries =>
    match fetchSummary (endpoint k chunk) with
    | .error e => .error e
    | .ok summary =>
      fetchLoop endpoint (k + 1) rest
        (if truthy summary then summaries ++ [summary] else summaries)

/-- Auxiliary of `splitSentences`. With `skipping` set, the scan is inside
the run of whitespace that ends a match of the separator. -/
def splitSentencesAux : Bool → JSString → List JSString
  | _, [] => [[]]
  | skipping, c :: cs =>
    if skipping && isWhitespace c then splitSentencesAux true cs
    else if c = dot && (cs.head?.map isWhitespace).getD false then
      [] :: splitSentencesAux true cs
    else pushFront c (splitSentencesAux false cs)

/-- The call `s.split(/\.\s+/)`: the pieces between the matches of a full
stop followed by its maximal run of whitespace. -/
def splitSentences (s : JSString) : List JSString :=
  splitSentencesAux false s

/-- The filter predicate `line => line.trim() && line.length > 10`. -/
def keepLine (line : JSString) : Bool :=
  truthy (trim line) && decide (line.length > 10)

/-- The call `s.replace(/\.$/, '')`: removes a full stop that ends `s`. -/
def stripFinalDot (s : JSString) : JSString :=
  if s.getLast? = some dot then s.dropLast else s

/-- The map function `line => line.trim().replace(/\.$/, '')`. -/
def cleanLine (line : JSString) : JSString :=
  stripFinalDot (trim line)

/-- The string `'AI summary unavailable.'`. -/
def fallbackText : JSString :=
  utf16 "AI summary unavailable."

/-- The chunk size that `getSummary` passes to `chunkContent`. -/
abbrev chunkWords : Nat := 500

/-- The statements of `getSummary` after the loop, from
`if (summaries.length === 0)` to the `return` of the bullet points. -/
def assemble (summaries : List JSString) : List JSString :=
  if summaries.length = 0 then [fallbackText]
  else
    let combinedSummary := join [space] summaries
    (((splitSentences combinedSummary).filter keepLine).map cleanLine).take 8

/-- The body of the `try` block of `getSummary`. A `content` that is not a
string has no method `split`, so the call inside `chunkContent` raises a
TypeError. -/
def getSummaryTry (endpoint : Endpoint) (content : JSValue) : Outcome (List JSString) :=
  match content with
  | .other => .throws .typeError
  | .string s =>
    match chunkContent s chunkWords with
    | none => .diverges
    | some chunks =>
      match fetchLoop endpoint 0 chunks [] with
      | .error e => .throws e
      | .ok summaries => .returns (assemble summaries)

/-- The function `getSummary(content)`: the `try` block, and the `catch`
block that logs the error and returns the fallback list. -/
def getSummary (endpoint : Endpoint) (content : JSValue) : Outcome (List JSString) :=
  match getSummaryTry endpoint content with
  | .throws _ => .returns [fallbackText]
  | r => r

/-! ## Notions used to state the properties -/

/-- Auxiliary of `whitespaceWords`: `cur` is the word being read. -/
def wordsFrom (cur : JSString) : JSString → List JSString
  | [] => if cur.isEmpty then [] else [cur]
  | c :: cs =>
    if isWhitespace c then
      (if cur.isEmpty then wordsFrom [] cs else cur :: wordsFrom [] cs)
    else wordsFrom (cur ++ [c]) cs

/-- The whitespace-separated words of a string: its maximal runs of
characters that are not whitespace, in order. -/
def whitespaceWords (s : JSString) : List JSString :=
  wordsFrom [] s

/-- Auxiliary of `groupsOf`, with one unit of fuel per group. -/
def groupsAux {α : Type} (m : Nat) : Nat → List α → List (List α)
  | 0, _ => []
  | _ + 1, [] => []
  | fuel + 1, a :: l => (a :: l).take m :: groupsAux m fuel ((a :: l).drop m)

/-- The consecutive groups of `m` elements of a list, the last one holding
what remains. -/
def groupsOf {α : Type} (m : Nat) (l : List α) : List (List α) :=
  groupsAux m l.length l

/-- The test `chunk.trim()` of `chunkContent` as a predicate. -/
def nonBlank (s : JSString) : Bool :=
  truthy (trim s)

/-- Ceiling of the quotient of two natural numbers. -/
def ceilDiv (n m : Nat) : Nat :=
  (n + m - 1) / m

/-- The chunks that the loop of `chunkContent` builds: the groups of
`maxWords` pieces of `content.split(' ')`, joined, the blank ones left out. -/
def loopChunks (content : JSString) (maxWords : Nat) : List JSString :=
  ((groupsOf maxWords (split space content)).map (join [space])).filter nonBlank

/-- The text that each chunk contributes, in chunk order, the first call
being call number `k`: the summary text of its reply, and the empty string
when the reply has none or the call fails. -/
def chunkTexts (endpoint : Endpoint) : Nat → List JSString → List JSString
  | _, [] => []
  | k, chunk :: rest =>
    (match fetchSummary (endpoint k chunk) with
      | .ok text => text
      | .error _ => []) :: chunkTexts endpoint (k + 1) rest

/-- The combined summary: the non-empty chunk texts joined by one space. -/
def combinedSummary (endpoint : Endpoint) (chunks : List JSString) : JSString :=
  join [space] ((chunkTexts endpoint 0 chunks).filter truthy)

/-- The retained, cleaned segments of the combined summary, in order. -/
def retainedSegments (endpoint : Endpoint) (chunks : List JSString) : List JSString :=
  ((splitSentences (combinedSummary endpoint chunks)).filter keepLine).map cleanLine

/-- A reply without usable summary text: a failed call, or a response whose
`summary_text` is missing or empty. -/
def noUsableText (reply : Reply) : Prop :=
  ∀ text, fetchSummary reply = .ok text → text = []

/-- A call that fails: the promise rejects or reading the response throws. -/
def callFails (reply : Reply) : Prop :=
  ∃ e, fetchSummary reply = .error e

/-- A content of `n` copies of the word "word" separated by single spaces. -/
def wordsContent (n : Nat) : JSString :=
  join [space] (List.replicate n (utf16 "word"))

/-- An endpoint whose first call succeeds with a one-sentence summary and
whose later calls all fail. -/
def failAfterFirst : Endpoint :=
  fun k _ => if k = 0 then .entry (some (utf16 "This is sentence one.")) else .rejected

/-- The endpoint `failAfterFirst` with each failure replaced by a success
with an empty summary. -/
def emptyAfterFirst : Endpoint :=
  fun k _ => if k = 0 then .entry (some (utf16 "This is sentence one.")) else .entry (some [])

/-! ## Further notions used to state the properties -/

/-- The text "s1. s2. ... sk." made of the given sentences: consecutive
sentences separated by a full stop and one space, a full stop at the end.
No sentence gives the empty text. -/
def renderSentences (sentences : List JSString) : JSString :=
  match sentences with
  | [] => []
  | _ :: _ => join [dot, space] sentences ++ [dot]

/-- A sentence as the property on assembled sentences takes it: free of full
stops, free of surrounding whitespace, longer than 10 characters. -/
def plainSentence (t : JSString) : Prop :=
  dot ∉ t ∧ trim t = t ∧ t.length > 10

/-- The sentences with a full stop added to the last one. -/
def dotLast : List JSString → List JSString
  | [] => []
  | [t] => [t ++ [dot]]
  | t :: u :: r => t :: dotLast (u :: r)

/-- An endpoint that answers the first call with "Sentence one. Sentence two."
and every later call with "Sentence three.". -/
def twoSummaries : Endpoint :=
  fun k _ =>
    .entry (some (if k = 0 then utf16 "Sentence one. Sentence two." else utf16 "Sentence three."))

/-- The sentences behind the replies of `twoSummaries`. -/
def twoSummariesSentences : Nat → List JSString :=
  fun k => if k = 0 then [utf16 "Sentence one", utf16 "Sentence two"] else [utf16 "Sentence three"]

/-- The content made of `n` copies of the word `w`, each followed by one
space. -/
def repeatedWord (w : JSString) (n : Nat) : JSString :=
  (List.replicate n (w ++ [space])).flatten

/-- The number of whitespace-separated words of a string. -/
def wordCount (s : JSString) : Nat :=
  (whitespaceWords s).length

/-- The string `g0 + c1 + g1 + ... + cn + gn` made of the chunks and of the
gaps around them. -/
def interleave (g0 : JSString) (chunks gaps : List JSString) : JSString :=
  g0 ++ (List.zipWith (fun c g => c ++ g) chunks gaps).flatten

/-- A string that holds only whitespace characters. -/
def allWhitespace (s : JSString) : Prop :=
  ∀ c ∈ s, isWhitespace c = true

/-! ## Route handlers -/

/-- Modelled from the spec: the Note document of `models/Note.js`, which is
not among the sources. It holds a title, a content, tags, a summary, an
owner reference and the created and updated timestamps of the data model,
together with the identifier `_id` that MongoDB gives every document. -/
structure Note where
  _id : Nat
  user : Nat
  title : JSString
  content : JSString
  tags : List JSString
  summary : List JSString
  createdAt : Nat
  updatedAt : Nat
  deriving DecidableEq, Repr

/-- The Note collection: the stored documents, in insertion order. -/
abbrev Store := List Note

/-- The fields `title`, `content` and `tags` read from `req.body`, for a body
that holds the three of them with their expected types. -/
structure NoteBody where
  title : JSString
  content : JSString
  tags : List JSString
  deriving DecidableEq, Repr

/-- A member of `req.query`: absent, a string, or a value of another kind
(an array or an object, which the query parser builds from repeated or
bracketed keys). -/
inductive QueryValue
  | absent
  | str (s : JSString)
  | other
  deriving DecidableEq, Repr

/-- Truthiness of a member of `req.query`. -/
def QueryValue.truthy : QueryValue → Bool
  | .absent => false
  | .str s => !s.isEmpty
  | .other => true

/-- Errors that reach the `catch` block of a route handler. -/
inductive HandlerError
  /-- A TypeError, such as the call of `trim` on a value without it. -/
  | typeError
  /-- The rejection of `note.save()` by the validation of the schema. -/
  | validationError
  deriving DecidableEq, Repr

/-- The JSON body of a response. -/
inductive Body
  /-- An array of notes, as in `res.json(notes)`. -/
  | notes (docs : List Note)
  /-- One note, as in `res.json(note)`. -/
  | note (doc : Note)
  /-- The object `{ message: text }` for a fixed text. -/
  | message (text : JSString)
  /-- The object `{ message: err.message }` of a `catch` block, for the error
  caught; the member `details` of the create handler is `undefined` for
  both kinds of error and so is left out of the JSON. -/
  | failure (err : HandlerError)
  deriving DecidableEq, Repr

/-- A response: its status code and its JSON body. -/
structure Response where
  status : Nat
  body : Body
  deriving DecidableEq, Repr

/-- The call `res.json(body)`, which answers with status 200. -/
def resJson (body : Body) : Response :=
  { status := 200, body := body }

/-- The filter `{ _id: id, user: user }` of the update and delete routes. The
route parameter `req.params.id` is taken as a well-formed identifier, as in
the tests; a failure of the database itself is not part of the model. -/
def ownedBy (id user : Nat) (n : Note) : Bool :=
  decide (n._id = id) && decide (n.user = user)

/-- The call `Note.findOneAndUpdate({ _id, user }, { title, content, tags,
updatedAt }, { new: true })`: the first matching document is updated in the
store and returned; without a match the result is `null` and the store is
left as it is. -/
def findOneAndUpdate (id user : Nat) (body : NoteBody) (now : Nat) :
    Store → Option Note × Store
  | [] => (none, [])
  | n :: rest =>
    if ownedBy id user n then
      let updated : Note :=
        { n with title := body.title, content := body.content, tags := body.tags,
                 updatedAt := now }
      (some updated, updated :: rest)
    else
      let r := findOneAndUpdate id user body now rest
      (r.1, n :: r.2)

/-- The call `Note.findOneAndDelete({ _id, user })`: the first matching
document is removed from the store and returned; without a match the result
is `null` and the store is left as it is. -/
def findOneAndDelete (id user : Nat) : Store → Option Note × Store
  | [] => (none, [])
  | n :: rest =>
    if ownedBy id user n then (some n, rest)
    else
      let r := findOneAndDelete id user rest
      (r.1, n :: r.2)

/-- The call `note.save()` for a document that is in the store already. -/
def saveNote (note : Note) (store : Store) : Store :=
  store.map fun n => if n._id = note._id then note else n

/-- The handler of `PUT /:id`, after `auth` has set `req.user`. The result is
the response and the store after the request. -/
def putNote (endpoint : Endpoint) (now : Nat) (store : Store) (user id : Nat)
    (body : NoteBody) : Outcome (Response × Store) :=
  match findOneAndUpdate id user body now store with
  | (none, store1) =>
    .returns ({ status := 404, body := .message (utf16 "Note not found") }, store1)
  | (some note, store1) =>
    match getSummary endpoint (.string body.content) with
    | .returns summary =>
      let saved : Note := { note with summary := summary }
      .returns (resJson (.note saved), saveNote saved store1)
    | .throws _ => .returns ({ status := 500, body := .failure .typeError }, store1)
    | .diverges => .diverges

/-- The handler of `DELETE /:id`, after `auth` has set `req.user`. -/
def deleteNote (store : Store) (user id : Nat) : Response × Store :=
  match findOneAndDelete id user store with
  | (none, store1) =>
    ({ status := 404, body := .message (utf16 "Note not found") }, store1)
  | (some _, store1) => (resJson (.message (utf16 "Note deleted")), store1)

/-- The query object built by the search handler: `user`, `title` when `q`
is truthy (the pattern of the `$regex` condition, with `$options: 'i'`), and
`tags` when `tag` is truthy. -/
structure Query where
  user : Nat
  title : Option QueryValue
  tags : Option QueryValue
  deriving DecidableEq, Repr

/-- The call `Note.find(query)`. How MongoDB evaluates the `$regex` condition
on a title and the `tags` condition on a list of tags is left to the two
parameters; a query that the database rejects is not part of the model. -/
def findNotes (regexTest : QueryValue → JSString → Bool)
    (tagTest : QueryValue → List JSString → Bool) (query : Query) (store : Store) :
    List Note :=
  store.filter fun n =>
    decide (n.user = query.user)
      && (match query.title with
          | none => true
          | some q => regexTest q n.title)
      && (match query.tags with
          | none => true
          | some t => tagTest t n.tags)

/-- The handler of `GET /search`, after `auth` has set `req.user`. -/
def searchNotes (regexTest : QueryValue → JSString → Bool)
    (tagTest : QueryValue → List JSString → Bool) (store : Store) (user : Nat)
    (q tag : QueryValue) : Response :=
  if !q.truthy && !tag.truthy then resJson (.notes [])
  else
    -- `q !== undefined && q.trim() === ''`; a value without `trim` throws here
    match q with
    | .other => { status := 500, body := .failure .typeError }
    | _ =>
      let blank : Bool :=
        match q with
        | .str s => (trim s).isEmpty
        | _ => false
      if blank && !tag.truthy then resJson (.notes [])
      else
        let query : Query :=
          { user := user
            title := if q.truthy then some q else none
            tags := if tag.truthy then some tag else none }
        resJson (.notes (findNotes regexTest tagTest query store))

/-- Modelled from the spec: the validation that `note.save()` runs against
the schema of `models/Note.js`, which is not among the sources. Following
the test `should return 400 for invalid note data`, a note with an empty
title fails validation; nothing else is required here. -/
def validNote (body : NoteBody) : Bool :=
  !body.title.isEmpty

/-- The handler of `POST /`, after `auth` has set `req.user`. The identifier
of the new document and the current time are parameters, and so is the
validation that `note.save()` runs. -/
def createNote (validate : NoteBody → Bool) (endpoint : Endpoint) (newId now : Nat)
    (store : Store) (user : Nat) (body : NoteBody) : Outcome (Response × Store) :=
  if validate body then
    let note : Note :=
      { _id := newId, user := user, title := body.title, content := body.content,
        tags := body.tags, summary := [], createdAt := now, updatedAt := now }
    let store1 := store ++ [note]
    match getSummary endpoint (.string body.content) with
    | .returns summary =>
      let saved : Note := { note with summary := summary }
      .returns ({ status := 201, body := .note saved }, saveNote saved store1)
    | .throws _ => .returns ({ status := 500, body := .failure .typeError }, store1)
    | .diverges => .diverges
  else
    .returns ({ status := 500, body := .failure .validationError }, store)

/-- The test body of `should return 400 for invalid note data`, with an empty
list of tags. -/
def invalidNoteData : NoteBody :=
  { title := utf16 "", content := utf16 "This is a test note content.", tags := [] }

/-! ## exportToMarkdown -/

/-- A note as `exportToMarkdown` reads it: `tags` is `none` when `note.tags`
is not an array, `summary` is `none` when `note.summary` is falsy. -/
structure ExportNote where
  title : JSString
  createdAt : Nat
  tags : Option (List JSString)
  content : JSString
  summary : Option (List JSString)
  deriving DecidableEq, Repr

/-- The text that the callback of `notes.forEach` adds to `markdown` for one
note. In the template literals of the source the line ends are written
`\\n`, which stands for a backslash followed by the letter n. -/
def noteMarkdown (localeDate : Nat → JSString) (note : ExportNote) : JSString :=
  utf16 "## " ++ note.title ++ utf16 "\\n\\n"
  ++ utf16 "**Created:** " ++ localeDate note.createdAt ++ utf16 "\\n"
  ++ utf16 "**Tags:** "
  ++ (match note.tags with
      | some tags => join (utf16 ", ") tags
      | none => [])
  ++ utf16 "\\n\\n"
  ++ note.content ++ utf16 "\\n\\n"
  ++ (match note.summary with
      | some (point :: points) =>
        utf16 "### AI Summary\\n\\n"
        ++ ((point :: points).map fun p => utf16 "- " ++ p ++ utf16 "\\n").flatten
        ++ utf16 "\\n"
      | _ => [])
  ++ utf16 "---\\n\\n"

/-- The function `exportToMarkdown(notes)`. The text of today's date and the
formatting of a creation date by `toLocaleDateString` are parameters. -/
def exportToMarkdown (localeDate : Nat → JSString) (today : JSString)
    (notes : List ExportNote) : JSString :=
  notes.foldl (fun markdown note => markdown ++ noteMarkdown localeDate note)
    (utf16 "# My Notes Export\\n\\n" ++ (utf16 "*Exported on: " ++ today ++ utf16 "*\\n\\n"))

/-- A note with one tag list and one summary point. -/
def sampleExportNote : ExportNote :=
  { title := utf16 "Note 1", createdAt := 0, tags := some [utf16 "tag1", utf16 "tag2"],
    content := utf16 "Content 1", summary := some [utf16 "Summary 1"] }

/-- Code unit of the newline character. -/
abbrev newline : Nat := 10

/-! ## NoteEditor -/

/-- Code unit of the comma. -/
abbrev comma : Nat := 44

/-- The initial value of the tags field of the editor,
`note.tags ? note.tags.join(', ') : ''`; `none` stands for a `note.tags`
that is `undefined` or `null`. -/
def tagsDisplay (tags : Option (List JSString)) : JSString :=
  match tags with
  | some list => join [comma, space] list
  | none => []

/-- The expression `tags.split(',').map(t => t.trim()).filter(Boolean)` of
`handleSubmit`. -/
def parseTags (tags : JSString) : List JSString :=
  ((split comma tags).map trim).filter truthy

/-- A string that neither begins nor ends with a whitespace character. -/
def noSurroundingWhitespace (t : JSString) : Prop :=
  (∀ c, t.head? = some c → isWhitespace c = false)
  ∧ (∀ c, t.getLast? = some c → isWhitespace c = false)

/-- A segment that holds a character other than whitespace and has more than
10 characters, counted before any trimming. -/
def longSegment (line : JSString) : Bool :=
  line.any (fun c => !isWhitespace c) && decide (10 < line.length)

/-! ## Lemmas on strings -/

theorem dropWhile_eq_nil_iff_all {α : Type} (p : α → Bool) (l : List α) :
    l.dropWhile p = [] ↔ ∀ c ∈ l, p c = true := by
  induction l with
  | nil => simp
  | cons a t ih =>
    by_cases h : p a = true
    · simp [List.dropWhile_cons, h, ih]
    · simp [List.dropWhile_cons, h]

theorem trim_eq_nil_iff (s : JSString) :
    trim s = [] ↔ ∀ c ∈ s, isWhitespace c = true := by
  unfold trim
  rw [List.reverse_eq_nil_iff, dropWhile_eq_nil_iff_all]
  constructor
  · intro h
    by_contra hne
    push_neg at hne
    obtain ⟨c, hc, hw⟩ := hne
    have h1 : s.dropWhile isWhitespace ≠ [] := by
      intro h0
      exact hw ((dropWhile_eq_nil_iff_all _ _).1 h0 c hc)
    obtain ⟨a, t, hat⟩ := List.exists_cons_of_ne_nil h1
    have h2 : isWhitespace a = false := by
      have := List.head_dropWhile_not isWhitespace s h1
      simpa [hat] using this
    have := h a (by simp [hat])
    simp [h2] at this
  · intro h
    have h0 : s.dropWhile isWhitespace = [] := (dropWhile_eq_nil_iff_all _ _).2 h
    simp [h0]

theorem nonBlank_eq_false_iff (s : JSString) :
    nonBlank s = false ↔ ∀ c ∈ s, isWhitespace c = true := by
  unfold nonBlank truthy
  rw [← trim_eq_nil_iff]
  cases trim s <;> simp

theorem nonBlank_iff (s : JSString) :
    nonBlank s = true ↔ ∃ c ∈ s, isWhitespace c = false := by
  constructor
  · intro h
    by_contra hne
    push_neg at hne
    have := (nonBlank_eq_false_iff s).2 (by simpa using hne)
    simp [this] at h
  · rintro ⟨c, hc, hw⟩
    by_contra hne
    have := (nonBlank_eq_false_iff s).1 (by simpa using hne) c hc
    simp [hw] at this

theorem split_ne_nil (sep : Nat) (s : JSString) : split sep s ≠ [] := by
  cases s with
  | nil => simp [split]
  | cons c cs =>
    simp only [split]
    split
    · simp
    · cases split sep cs <;> simp [pushFront]

theorem split_length_pos (sep : Nat) (s : JSString) : 0 < (split sep s).length :=
  List.length_pos.2 (split_ne_nil sep s)

theorem join_pushFront (sep : JSString) (c : Nat) (l : List JSString) (h : l ≠ []) :
    join sep (pushFront c l) = c :: join sep l := by
  cases l with
  | nil => exact absurd rfl h
  | cons w ws =>
    cases ws <;> simp [pushFront, join, List.intercalate, List.intersperse]

theorem join_split (sep : Nat) (s : JSString) : join [sep] (split sep s) = s := by
  induction s with
  | nil => simp [split, join, List.intercalate]
  | cons c cs ih =>
    simp only [split]
    split
    · next h =>
      subst h
      have hne := split_ne_nil c cs
      cases hs : split c cs with
      | nil => exact absurd hs hne
      | cons w ws =>
        rw [hs] at ih
        rw [← ih]
        simp [join, List.intercalate, List.intersperse]
    · rw [join_pushFront _ _ _ (split_ne_nil sep cs), ih]

/-! ## Lemmas on groups and on the loop of chunkContent -/

theorem groupsAux_join {α : Type} (m : Nat) (hm : 0 < m) :
    ∀ (fuel : Nat) (l : List α), l.length ≤ fuel → (groupsAux m fuel l).flatten = l := by
  intro fuel
  induction fuel with
  | zero =>
    intro l hl
    have : l = [] := List.length_eq_zero.1 (Nat.le_zero.1 hl)
    simp [groupsAux, this]
  | succ n ih =>
    intro l hl
    cases l with
    | nil => simp [groupsAux]
    | cons a t =>
      have hlen : ((a :: t).drop m).length ≤ n := by
        simp only [List.length_drop, List.length_cons] at hl ⊢
        omega
      simp only [groupsAux, List.flatten_cons, ih _ hlen, List.take_append_drop]

theorem groupsAux_length {α : Type} (m : Nat) (hm : 0 < m) :
    ∀ (fuel : Nat) (l : List α), l.length ≤ fuel →
      (groupsAux m fuel l).length = ceilDiv l.length m := by
  intro fuel
  induction fuel with
  | zero =>
    intro l hl
    have : l = [] := List.length_eq_zero.1 (Nat.le_zero.1 hl)
    subst this
    simp only [groupsAux, List.length_nil, ceilDiv, Nat.zero_add]
    exact (Nat.div_eq_of_lt (by omega)).symm
  | succ n ih =>
    intro l hl
    cases l with
    | nil =>
      simp only [groupsAux, List.length_nil, ceilDiv, Nat.zero_add]
      exact (Nat.div_eq_of_lt (by omega)).symm
    | cons a t =>
      have hlen : ((a :: t).drop m).length ≤ n := by
        simp only [List.length_drop, List.length_cons] at hl ⊢
        omega
      simp only [groupsAux, List.length_cons, ih _ hlen, List.length_drop, ceilDiv]
      by_cases hk : t.length + 1 ≤ m
      · have h1 : t.length + 1 - m = 0 := by omega
        rw [h1, Nat.zero_add, Nat.div_eq_of_lt (by omega)]
        have h2 : (t.length + 1 + m - 1) / m = 1 := by
          apply Nat.div_eq_of_lt_le <;> omega
        omega
      · have h3 : t.length + 1 + m - 1 = (t.length + 1 - m + m - 1) + m := by omega
        rw [h3, Nat.add_div_right _ hm]

theorem groupsAux_mem {α : Type} (m : Nat) (hm : 0 < m) :
    ∀ (fuel : Nat) (l g : List α), g ∈ groupsAux m fuel l →
      g ≠ [] ∧ g.length ≤ m ∧ ∀ x ∈ g, x ∈ l := by
  intro fuel
  induction fuel with
  | zero => intro l g hg; simp [groupsAux] at hg
  | succ n ih =>
    intro l g hg
    cases l with
    | nil => simp [groupsAux] at hg
    | cons a t =>
      simp only [groupsAux, List.mem_cons] at hg
      rcases hg with rfl | hg
      · refine ⟨?_, ?_, ?_⟩
        · cases m with
          | zero => omega
          | succ k => simp
        · simp only [List.length_take]; omega
        · intro x hx; exact List.mem_of_mem_take hx
      · obtain ⟨h1, h2, h3⟩ := ih _ g hg
        exact ⟨h1, h2, fun x hx => List.mem_of_mem_drop (h3 x hx)⟩

theorem chunkLoop_eq (words : List JSString) (m : Nat) (hm : 0 < m) :
    ∀ (fuel i : Nat) (chunks : List JSString), words.length ≤ i + fuel →
      chunkLoop words m fuel i chunks =
        some (chunks ++ ((groupsAux m fuel (words.drop i)).map (join [space])).filter nonBlank) := by
  intro fuel
  induction fuel with
  | zero =>
    intro i chunks h
    have : ¬ i < words.length := by omega
    simp [chunkLoop, this, groupsAux]
  | succ n ih =>
    intro i chunks h
    by_cases hi : i < words.length
    · obtain ⟨a, t, hat⟩ : ∃ a t, words.drop i = a :: t := by
        apply List.exists_cons_of_ne_nil
        intro h0
        have := List.drop_eq_nil_iff.1 h0
        omega
      have hdrop : words.drop (i + m) = (a :: t).drop m := by
        rw [← hat, List.drop_drop, Nat.add_comm]
      have hslice : slice words i (i + m) = (a :: t).take m := by
        simp [slice, hat]
      simp only [chunkLoop, hi, if_true, hslice]
      rw [ih (i + m) _ (by omega), hdrop, hat]
      simp only [groupsAux, List.map_cons, List.filter_cons, nonBlank]
      split <;> simp
    · have h0 : words.drop i = [] := List.drop_eq_nil_iff.2 (by omega)
      simp [chunkLoop, hi, h0, groupsAux]

theorem chunkContent_eq (content : JSString) (m : Nat) (hm : 0 < m) :
    chunkContent content m =
      some (if (loopChunks content m).length > 0 then loopChunks content m else [content]) := by
  unfold chunkContent
  simp only
  rw [chunkLoop_eq _ m hm _ 0 [] (by omega)]
  simp [loopChunks, groupsOf]

/-! ## Lemmas on words -/

theorem join_nil (sep : JSString) : join sep [] = [] := rfl

theorem join_singleton (sep p : JSString) : join sep [p] = p := by
  simp [join, List.intercalate]

theorem join_cons_cons (sep p q : JSString) (r : List JSString) :
    join sep (p :: q :: r) = p ++ (sep ++ join sep (q :: r)) := by
  simp [join, List.intercalate, List.intersperse]

theorem mem_join_of_mem (sep : JSString) :
    ∀ (g : List JSString) (p : JSString) (c : Nat), p ∈ g → c ∈ p → c ∈ join sep g := by
  intro g
  induction g with
  | nil => intro p c hp; simp at hp
  | cons a t ih =>
    intro p c hp hc
    cases t with
    | nil =>
      simp only [List.mem_singleton] at hp
      subst hp
      simpa [join_singleton] using hc
    | cons b r =>
      rw [join_cons_cons]
      rcases List.mem_cons.1 hp with rfl | hp
      · exact List.mem_append_left _ hc
      · exact List.mem_append_right _ (List.mem_append_right _ (ih p c hp hc))

theorem mem_of_mem_join (sep : JSString) :
    ∀ (g : List JSString) (c : Nat), c ∈ join sep g → c ∈ sep ∨ ∃ p ∈ g, c ∈ p := by
  intro g
  induction g with
  | nil => intro c hc; simp [join_nil] at hc
  | cons a t ih =>
    intro c hc
    cases t with
    | nil =>
      rw [join_singleton] at hc
      exact Or.inr ⟨a, by simp, hc⟩
    | cons b r =>
      rw [join_cons_cons] at hc
      rcases List.mem_append.1 hc with h | h
      · exact Or.inr ⟨a, by simp, h⟩
      · rcases List.mem_append.1 h with h | h
        · exact Or.inl h
        · rcases ih c h with h | ⟨p, hp, hcp⟩
          · exact Or.inl h
          · exact Or.inr ⟨p, List.mem_cons_of_mem _ hp, hcp⟩

theorem mem_of_mem_split (sep : Nat) (s p : JSString) (c : Nat)
    (hp : p ∈ split sep s) (hc : c ∈ p) : c ∈ s := by
  have := mem_join_of_mem [sep] (split sep s) p c hp hc
  rwa [join_split] at this

theorem split_no_sep (sep : Nat) :
    ∀ (s p : JSString), p ∈ split sep s → sep ∉ p := by
  intro s
  induction s with
  | nil => intro p hp; simp [split] at hp; simp [hp]
  | cons c cs ih =>
    intro p hp
    simp only [split] at hp
    split at hp
    · rcases List.mem_cons.1 hp with rfl | hp
      · simp
      · exact ih p hp
    · next hne =>
      cases hs : split sep cs with
      | nil => exact absurd hs (split_ne_nil sep cs)
      | cons w ws =>
        rw [hs] at hp ih
        simp only [pushFront, List.mem_cons] at hp
        rcases hp with rfl | hp
        · intro hmem
          rcases List.mem_cons.1 hmem with h | h
          · exact hne h.symm
          · exact ih w (by simp) h
        · exact ih p (by simp [hp])

theorem wordsFrom_append_ws (w : Nat) (hw : isWhitespace w = true) (b : JSString) :
    ∀ (a cur : JSString),
      wordsFrom cur (a ++ w :: b) = wordsFrom cur a ++ wordsFrom [] b := by
  intro a
  induction a with
  | nil =>
    intro cur
    cases cur <;> simp [wordsFrom, hw]
  | cons c cs ih =>
    intro cur
    by_cases hc : isWhitespace c = true
    · cases cur <;> simp [wordsFrom, hc, ih]
    · simp [wordsFrom, hc, ih]

theorem whitespaceWords_join (ps : List JSString) :
    whitespaceWords (join [space] ps) = (ps.map whitespaceWords).flatten := by
  induction ps with
  | nil => simp [join_nil, whitespaceWords, wordsFrom]
  | cons a t ih =>
    cases t with
    | nil => simp [join_singleton]
    | cons b r =>
      rw [join_cons_cons]
      simp only [List.singleton_append, List.map_cons, List.flatten_cons]
      unfold whitespaceWords at ih ⊢
      rw [wordsFrom_append_ws space (by decide), ih]
      simp

theorem whitespaceWords_blank :
    ∀ (s : JSString), (∀ c ∈ s, isWhitespace c = true) → whitespaceWords s = [] := by
  intro s
  induction s with
  | nil => intro _; simp [whitespaceWords, wordsFrom]
  | cons c cs ih =>
    intro h
    have hc : isWhitespace c = true := h c (by simp)
    have := ih (fun d hd => h d (by simp [hd]))
    unfold whitespaceWords at this ⊢
    simp [wordsFrom, hc, this]

theorem wordsFrom_no_whitespace :
    ∀ (p cur : JSString), (∀ c ∈ p, isWhitespace c = false) →
      wordsFrom cur p = if (cur ++ p).isEmpty then [] else [cur ++ p] := by
  intro p
  induction p with
  | nil => intro cur _; simp [wordsFrom]
  | cons c cs ih =>
    intro cur h
    have hc : isWhitespace c = false := h c (by simp)
    have := ih (cur ++ [c]) (fun d hd => h d (by simp [hd]))
    simp [wordsFrom, hc, this]

theorem whitespaceWords_word (p : JSString) (hne : p ≠ [])
    (h : ∀ c ∈ p, isWhitespace c = false) : whitespaceWords p = [p] := by
  unfold whitespaceWords
  rw [wordsFrom_no_whitespace p [] h]
  cases p with
  | nil => exact absurd rfl hne
  | cons a t => simp

theorem whitespaceWords_length_le_one (p : JSString)
    (h : ∀ c ∈ p, isWhitespace c = false) : (whitespaceWords p).length ≤ 1 := by
  unfold whitespaceWords
  rw [wordsFrom_no_whitespace p [] h]
  split <;> simp

theorem flatten_map_filter_nonBlank (l : List JSString) :
    ((l.filter nonBlank).map whitespaceWords).flatten = (l.map whitespaceWords).flatten := by
  induction l with
  | nil => simp
  | cons a t ih =>
    by_cases ha : nonBlank a = true
    · simp [List.filter_cons, ha, ih]
    · have hb : whitespaceWords a = [] :=
        whitespaceWords_blank a ((nonBlank_eq_false_iff a).1 (by simpa using ha))
      simp [List.filter_cons, ha, ih, hb]

theorem flatten_map_flatten {α β : Type} (f : α → List β) (L : List (List α)) :
    (L.map (fun g => (g.map f).flatten)).flatten = (L.flatten.map f).flatten := by
  induction L with
  | nil => simp
  | cons g t ih => simp [ih]

theorem groupsOf_flatten {α : Type} (m : Nat) (hm : 0 < m) (l : List α) :
    (groupsOf m l).flatten = l :=
  groupsAux_join m hm l.length l (Nat.le_refl _)

theorem loopChunks_words (content : JSString) (m : Nat) (hm : 0 < m) :
    ((loopChunks content m).map whitespaceWords).flatten = whitespaceWords content := by
  unfold loopChunks
  rw [flatten_map_filter_nonBlank, List.map_map]
  have h1 : (whitespaceWords ∘ join [space]) = fun g => (g.map whitespaceWords).flatten := by
    funext g
    simp [whitespaceWords_join]
  rw [h1, flatten_map_flatten, groupsOf_flatten m hm, ← whitespaceWords_join, join_split]

/-! ## Lemmas on getSummary -/

theorem chunkContent_chunkWords (s : JSString) :
    ∃ chunks, chunkContent s chunkWords = some chunks :=
  ⟨_, chunkContent_eq s chunkWords (by decide)⟩

theorem fetchLoop_ok (endpoint : Endpoint) :
    ∀ (chunks : List JSString) (k : Nat) (acc : List JSString),
      (∀ j (hj : j < chunks.length), ¬ callFails (endpoint (k + j) (chunks.get ⟨j, hj⟩))) →
      fetchLoop endpoint k chunks acc
        = .ok (acc ++ (chunkTexts endpoint k chunks).filter truthy) := by
  intro chunks
  induction chunks with
  | nil => intro k acc _; simp [fetchLoop, chunkTexts]
  | cons c rest ih =>
    intro k acc h
    have h0 := h 0 (by simp)
    simp only [Nat.add_zero, List.get_eq_getElem, List.getElem_cons_zero] at h0
    have hrest : ∀ j (hj : j < rest.length),
        ¬ callFails (endpoint (k + 1 + j) (rest.get ⟨j, hj⟩)) := by
      intro j hj
      have := h (j + 1) (by simp; omega)
      simpa [Nat.add_assoc, Nat.add_comm 1 j] using this
    cases hf : fetchSummary (endpoint k c) with
    | error e => exact absurd ⟨e, hf⟩ h0
    | ok text =>
      simp only [fetchLoop, hf, chunkTexts, List.filter_cons]
      rw [ih (k + 1) _ hrest]
      split <;> simp

theorem fetchLoop_error (endpoint : Endpoint) :
    ∀ (chunks : List JSString) (k : Nat) (acc : List JSString) (j : Nat) (hj : j < chunks.length),
      callFails (endpoint (k + j) (chunks.get ⟨j, hj⟩)) →
      ∃ e, fetchLoop endpoint k chunks acc = .error e := by
  intro chunks
  induction chunks with
  | nil => intro k acc j hj; simp at hj
  | cons c rest ih =>
    intro k acc j hj hfail
    cases hf : fetchSummary (endpoint k c) with
    | error e => exact ⟨e, by simp [fetchLoop, hf]⟩
    | ok text =>
      cases j with
      | zero =>
        obtain ⟨e, he⟩ := hfail
        simp only [Nat.add_zero, List.get_eq_getElem, List.getElem_cons_zero] at he
        rw [hf] at he
        cases he
      | succ i =>
        have hi : i < rest.length := by simpa using hj
        have hfail2 : callFails (endpoint (k + 1 + i) (rest.get ⟨i, hi⟩)) := by
          simpa [Nat.add_assoc, Nat.add_comm 1 i] using hfail
        obtain ⟨e, he⟩ := ih (k + 1) (if truthy text then acc ++ [text] else acc) i hi hfail2
        exact ⟨e, by simp only [fetchLoop, hf]; exact he⟩

theorem chunkTexts_filter_nil (endpoint : Endpoint) :
    ∀ (chunks : List JSString) (k : Nat),
      (∀ j (hj : j < chunks.length), noUsableText (endpoint (k + j) (chunks.get ⟨j, hj⟩))) →
      (chunkTexts endpoint k chunks).filter truthy = [] := by
  intro chunks
  induction chunks with
  | nil => intro k _; simp [chunkTexts]
  | cons c rest ih =>
    intro k h
    have h0 := h 0 (by simp)
    simp only [Nat.add_zero, List.get_eq_getElem, List.getElem_cons_zero] at h0
    have hrest : ∀ j (hj : j < rest.length),
        noUsableText (endpoint (k + 1 + j) (rest.get ⟨j, hj⟩)) := by
      intro j hj
      have := h (j + 1) (by simp; omega)
      simpa [Nat.add_assoc, Nat.add_comm 1 j] using this
    simp only [chunkTexts, List.filter_cons, ih (k + 1) hrest]
    cases hf : fetchSummary (endpoint k c) with
    | error e => simp [truthy]
    | ok text => simp [h0 text hf, truthy]

theorem chunkTexts_filter_ne_nil (endpoint : Endpoint) :
    ∀ (chunks : List JSString) (k : Nat) (j : Nat) (hj : j < chunks.length),
      ¬ noUsableText (endpoint (k + j) (chunks.get ⟨j, hj⟩)) →
      (chunkTexts endpoint k chunks).filter truthy ≠ [] := by
  intro chunks
  induction chunks with
  | nil => intro k j hj; simp at hj
  | cons c rest ih =>
    intro k j hj hne
    cases j with
    | zero =>
      simp only [Nat.add_zero, List.get_eq_getElem, List.getElem_cons_zero, noUsableText] at hne
      push_neg at hne
      obtain ⟨text, hf, ht⟩ := hne
      have : truthy text = true := by cases text <;> simp_all [truthy]
      simp [chunkTexts, List.filter_cons, hf, this]
    | succ i =>
      have hi : i < rest.length := by simpa using hj
      have hne2 : ¬ noUsableText (endpoint (k + 1 + i) (rest.get ⟨i, hi⟩)) := by
        simpa [Nat.add_assoc, Nat.add_comm 1 i] using hne
      have := ih (k + 1) i hi hne2
      simp only [chunkTexts, List.filter_cons]
      split
      · simp
      · exact this

theorem getSummary_of_failed_call (endpoint : Endpoint) (s : JSString)
    (chunks : List JSString) (hc : chunkContent s chunkWords = some chunks)
    (j : Nat) (hj : j < chunks.length) (hfail : callFails (endpoint j chunks[j])) :
    getSummary endpoint (.string s) = .returns [fallbackText] := by
  obtain ⟨e, he⟩ := fetchLoop_error endpoint chunks 0 [] j hj (by simpa using hfail)
  simp [getSummary, getSummaryTry, hc, he]

/-! ## Properties of chunkContent -/

/-- C5, as stated, fails: the code splits on the single space character, not
on whitespace. The content "a  b" (two spaces) has 2 words, so with limit 2
the claim gives ceil(2/2) = 1 chunk, and the code returns the two chunks "a "
and "b"; the content "one\ntwo" has 2 words, so with limit 1 the claim gives
2 chunks, and the code returns one. -/
theorem chunkContent_count_whitespace_fails :
    (whitespaceWords (utf16 "a  b")).length = 2
    ∧ ceilDiv 2 2 = 1
    ∧ chunkContent (utf16 "a  b") 2 = some [utf16 "a ", utf16 "b"]
    ∧ (whitespaceWords (utf16 "one\ntwo")).length = 2
    ∧ ceilDiv 2 1 = 2
    ∧ chunkContent (utf16 "one\ntwo") 1 = some [utf16 "one\ntwo"] := by
  decide

/-- C5, amended: for a content made of N >= 1 non-empty, whitespace-free
words separated by single space characters (every piece of
`content.split(' ')` is non-empty and holds no whitespace) and a limit
M >= 1, `chunkContent` returns exactly ceil(N/M) chunks, N being the number
of whitespace-separated words of the content. -/
theorem chunkContent_count (content : JSString) (m : Nat) (hm : 1 ≤ m)
    (hwords : ∀ p ∈ split space content, p ≠ [] ∧ ∀ c ∈ p, isWhitespace c = false) :
    ∃ chunks, chunkContent content m = some chunks
      ∧ chunks.length = ceilDiv (whitespaceWords content).length m := by
  have hN : whitespaceWords content = split space content := by
    conv_lhs => rw [← join_split space content]
    rw [whitespaceWords_join]
    have : ∀ l : List JSString, (∀ p ∈ l, p ≠ [] ∧ ∀ c ∈ p, isWhitespace c = false) →
        (l.map whitespaceWords).flatten = l := by
      intro l
      induction l with
      | nil => intro _; simp
      | cons a t ih =>
        intro h
        have ha := h a (by simp)
        simp [whitespaceWords_word a ha.1 ha.2, ih (fun p hp => h p (by simp [hp]))]
    exact this _ hwords
  have hkeep : loopChunks content m = (groupsOf m (split space content)).map (join [space]) := by
    unfold loopChunks
    rw [List.filter_eq_self]
    intro chunk hchunk
    obtain ⟨g, hg, rfl⟩ := List.mem_map.1 hchunk
    obtain ⟨hne, -, hsub⟩ := groupsAux_mem m hm _ _ g hg
    obtain ⟨a, t, rfl⟩ := List.exists_cons_of_ne_nil hne
    have ha := hwords a (hsub a (by simp))
    obtain ⟨c, t2, hc⟩ := List.exists_cons_of_ne_nil ha.1
    rw [nonBlank_iff]
    refine ⟨c, mem_join_of_mem _ _ a c (by simp) (by simp [hc]), ha.2 c (by simp [hc])⟩
  have hlen : (loopChunks content m).length = ceilDiv (split space content).length m := by
    rw [hkeep, List.length_map]
    exact groupsAux_length m hm _ _ (Nat.le_refl _)
  have hpos : 0 < ceilDiv (split space content).length m := by
    have := split_length_pos space content
    unfold ceilDiv
    apply Nat.div_pos <;> omega
  refine ⟨loopChunks content m, ?_, by rw [hlen, hN]⟩
  rw [chunkContent_eq content m hm]
  simp [hlen, hpos]

theorem chunkContent_count_witness :
    ∃ chunks, chunkContent (utf16 "a b c") 2 = some chunks
      ∧ chunks.length = ceilDiv (whitespaceWords (utf16 "a b c")).length 2 :=
  chunkContent_count (utf16 "a b c") 2 (by decide) (by decide)

/-- C6, as stated, fails: a tab or a newline is whitespace but does not end
a piece of `content.split(' ')`. With limit 1 the content "a\tb" comes back
as one chunk, which holds 2 words. -/
theorem chunkContent_words_per_chunk_fails :
    chunkContent (utf16 "a\tb") 1 = some [utf16 "a\tb"]
    ∧ (whitespaceWords (utf16 "a\tb")).length = 2 := by
  decide

/-- C6, amended: for a content whose only whitespace characters are spaces
and a limit M >= 1, every chunk returned by `chunkContent` holds at most M
words (maximal runs of non-whitespace characters). -/
theorem chunkContent_words_per_chunk (content : JSString) (m : Nat) (hm : 1 ≤ m)
    (hspace : ∀ c ∈ content, isWhitespace c = true → c = space) :
    ∃ chunks, chunkContent content m = some chunks
      ∧ ∀ chunk ∈ chunks, (whitespaceWords chunk).length ≤ m := by
  have hbound : ∀ g : List JSString, (∀ p ∈ g, ∀ c ∈ p, isWhitespace c = false) →
      ((g.map whitespaceWords).flatten).length ≤ g.length := by
    intro g
    induction g with
    | nil => intro _; simp
    | cons a t ih =>
      intro h
      have h1 := whitespaceWords_length_le_one a (h a (by simp))
      have h2 := ih (fun p hp => h p (by simp [hp]))
      simp only [List.map_cons, List.flatten_cons, List.length_append, List.length_cons]
      omega
  refine ⟨_, chunkContent_eq content m hm, ?_⟩
  intro chunk hchunk
  split at hchunk
  · unfold loopChunks at hchunk
    obtain ⟨hmem, -⟩ := List.mem_filter.1 hchunk
    obtain ⟨g, hg, rfl⟩ := List.mem_map.1 hmem
    obtain ⟨-, hglen, hsub⟩ := groupsAux_mem m hm _ _ g hg
    rw [whitespaceWords_join]
    refine Nat.le_trans (hbound g ?_) hglen
    intro p hp c hc
    have hps := hsub p hp
    by_contra hw
    have hw2 : isWhitespace c = true := by simpa using hw
    have := hspace c (mem_of_mem_split space content p c hps hc) hw2
    subst this
    exact split_no_sep space content p hps hc
  · next hempty =>
    have h0 : loopChunks content m = [] := by
      cases h : loopChunks content m with
      | nil => rfl
      | cons a t => simp [h] at hempty
    have hw := loopChunks_words content m hm
    rw [h0] at hw
    simp only [List.mem_singleton] at hchunk
    subst hchunk
    simp [← hw]

theorem chunkContent_words_per_chunk_witness :
    ∃ chunks, chunkContent (utf16 "a  b c") 2 = some chunks
      ∧ ∀ chunk ∈ chunks, (whitespaceWords chunk).length ≤ 2 :=
  chunkContent_words_per_chunk (utf16 "a  b c") 2 (by decide) (by decide)

/-- C7: chunking loses, duplicates and reorders no word. For every content
and every limit M >= 1, `chunkContent` returns, and the whitespace-separated
word lists of its chunks, concatenated in chunk order, are exactly the
whitespace-separated word list of the content. -/
theorem chunkContent_words_preserved (content : JSString) (m : Nat) (hm : 1 ≤ m) :
    ∃ chunks, chunkContent content m = some chunks
      ∧ (chunks.map whitespaceWords).flatten = whitespaceWords content := by
  refine ⟨_, chunkContent_eq content m hm, ?_⟩
  split
  · exact loopChunks_words content m hm
  · simp

theorem chunkContent_words_preserved_witness :
    ∃ chunks, chunkContent (utf16 " one\ttwo  three four ") 2 = some chunks
      ∧ (chunks.map whitespaceWords).flatten
          = whitespaceWords (utf16 " one\ttwo  three four ") :=
  chunkContent_words_preserved (utf16 " one\ttwo  three four ") 2 (by decide)

/-- C8, as stated, fails: the limit counts pieces between single spaces, not
words. The content "a " has 1 word, and with limit 1 the only chunk is "a",
not the content; the content "a  b c" has 3 words, and with limit 3 there
are two chunks. -/
theorem chunkContent_short_content_fails :
    (whitespaceWords (utf16 "a ")).length = 1
    ∧ chunkContent (utf16 "a ") 1 = some [utf16 "a"]
    ∧ utf16 "a" ≠ utf16 "a "
    ∧ (whitespaceWords (utf16 "a  b c")).length = 3
    ∧ chunkContent (utf16 "a  b c") 3 = some [utf16 "a  b", utf16 "c"] := by
  decide

/-- C8, amended: for a content that `split(' ')` cuts into at most M pieces
(a content with fewer than M space characters), M >= 1, `chunkContent`
returns exactly one chunk, equal to the content character for character. -/
theorem chunkContent_short_content (content : JSString) (m : Nat) (hm : 1 ≤ m)
    (hshort : (split space content).length ≤ m) :
    chunkContent content m = some [content] := by
  rw [chunkContent_eq content m hm]
  have hgroups : groupsOf m (split space content) = [split space content] := by
    unfold groupsOf
    cases hs : split space content with
    | nil => exact absurd hs (split_ne_nil space content)
    | cons a t =>
      rw [hs] at hshort
      have h1 : (a :: t).take m = a :: t := List.take_of_length_le hshort
      have h2 : (a :: t).drop m = [] := List.drop_of_length_le hshort
      simp only [List.length_cons, groupsAux, h1, h2]
      cases t.length <;> simp [groupsAux]
  have hchunks : loopChunks content m = [content].filter nonBlank := by
    unfold loopChunks
    rw [hgroups]
    simp [join_split]
  rw [hchunks]
  by_cases hb : nonBlank content = true <;> simp [List.filter_cons, hb]

theorem chunkContent_short_content_witness :
    chunkContent (utf16 "one two\nthree") 2 = some [utf16 "one two\nthree"] :=
  chunkContent_short_content (utf16 "one two\nthree") 2 (by decide) (by decide)

/-- C9: `chunkContent` never returns zero chunks. For every content and
every limit M >= 1 it returns a non-empty list, and for a content that is
empty or holds only whitespace that list is exactly `[content]`. -/
theorem chunkContent_never_empty (content : JSString) (m : Nat) (hm : 1 ≤ m) :
    ∃ chunks, chunkContent content m = some chunks
      ∧ chunks ≠ []
      ∧ ((∀ c ∈ content, isWhitespace c = true) → chunks = [content]) := by
  refine ⟨_, chunkContent_eq content m hm, ?_, ?_⟩
  · split
    · next h => exact List.ne_nil_of_length_pos h
    · simp
  · intro hblank
    have h0 : loopChunks content m = [] := by
      unfold loopChunks
      rw [List.filter_eq_nil_iff]
      intro chunk hchunk
      obtain ⟨g, hg, rfl⟩ := List.mem_map.1 hchunk
      obtain ⟨-, -, hsub⟩ := groupsAux_mem m hm _ _ g hg
      have : nonBlank (join [space] g) = false := by
        rw [nonBlank_eq_false_iff]
        intro c hc
        rcases mem_of_mem_join _ _ _ hc with h | ⟨p, hp, hcp⟩
        · simp only [List.mem_singleton] at h
          subst h
          decide
        · exact hblank c (mem_of_mem_split space content p c (hsub p hp) hcp)
      simp [this]
    simp [h0]

theorem chunkContent_never_empty_witness :
    ∃ chunks, chunkContent (utf16 " \t ") 1 = some chunks
      ∧ chunks ≠ []
      ∧ ((∀ c ∈ utf16 " \t ", isWhitespace c = true) → chunks = [utf16 " \t "]) :=
  chunkContent_never_empty (utf16 " \t ") 1 (by decide)

/-! ## Properties of getSummary -/

/-- C1: the summary list is claimed to have between 1 and 8 entries. The
code has at most 8 but can have none: when the endpoint answers the content
"hello" with the summary "Too short." (ten characters), the text is pushed,
its only segment fails the test `line.length > 10`, and `getSummary` returns
the empty list instead of a list of at least one entry. -/
theorem getSummary_returns_empty_list :
    getSummary (fun _ _ => .entry (some (utf16 "Too short."))) (.string (utf16 "hello"))
      = .returns [] := by
  decide

/-- C2, as stated, fails: with a content of 501 words (two chunks), a first
call that succeeds with "This is sentence one." and a second call that is
rejected, `getSummary` returns the fallback list, whereas with the second
call succeeding with an empty summary it returns the bullet of the first
chunk. -/
theorem getSummary_failure_not_isolated :
    (chunkContent (wordsContent 501) chunkWords).map List.length = some 2
    ∧ (∀ chunk, fetchSummary (failAfterFirst 0 chunk) = .ok (utf16 "This is sentence one."))
    ∧ (∀ chunk, fetchSummary (failAfterFirst 1 chunk) = .error .axiosError)
    ∧ (∀ chunk, emptyAfterFirst 0 chunk = failAfterFirst 0 chunk)
    ∧ (∀ chunk, fetchSummary (emptyAfterFirst 1 chunk) = .ok [])
    ∧ getSummary failAfterFirst (.string (wordsContent 501)) = .returns [fallbackText]
    ∧ getSummary emptyAfterFirst (.string (wordsContent 501))
        = .returns [utf16 "This is sentence one"]
    ∧ getSummary failAfterFirst (.string (wordsContent 501))
        ≠ getSummary emptyAfterFirst (.string (wordsContent 501)) := by
  set_option maxRecDepth 100000 in
  exact ⟨by decide, fun _ => rfl, fun _ => rfl, fun _ => rfl, fun _ => rfl,
    by decide, by decide, by decide⟩

/-- C2, amended: a failed call for any one chunk makes `getSummary` return
the fallback list, whatever the calls for the other chunks return. -/
theorem getSummary_fallback_on_failed_call (endpoint : Endpoint) (s : JSString)
    (chunks : List JSString) (hc : chunkContent s chunkWords = some chunks)
    (j : Nat) (hj : j < chunks.length) (hfail : callFails (endpoint j chunks[j])) :
    getSummary endpoint (.string s) = .returns [fallbackText] :=
  getSummary_of_failed_call endpoint s chunks hc j hj hfail

theorem getSummary_fallback_on_failed_call_witness :
    chunkContent (utf16 "hello") chunkWords = some [utf16 "hello"]
    ∧ callFails ((fun _ _ => Reply.rejected : Endpoint) 0 (utf16 "hello"))
    ∧ getSummary (fun _ _ => Reply.rejected) (.string (utf16 "hello"))
        = .returns [fallbackText] :=
  ⟨by decide, ⟨.axiosError, rfl⟩,
    getSummary_fallback_on_failed_call (fun _ _ => Reply.rejected) (utf16 "hello")
      [utf16 "hello"] (by decide) 0 (by decide) ⟨.axiosError, rfl⟩⟩

/-- C3: when no chunk produces usable summary text (each call made either
fails or gives a response without a non-empty `summary_text`), `getSummary`
returns exactly the one-element list holding "AI summary unavailable.". -/
theorem getSummary_fallback_when_no_text (endpoint : Endpoint) (content : JSValue)
    (h : ∀ s chunks, content = .string s → chunkContent s chunkWords = some chunks →
      ∀ j (hj : j < chunks.length), callFails (endpoint j chunks[j]) ∨
        noUsableText (endpoint j chunks[j])) :
    getSummary endpoint content = .returns [utf16 "AI summary unavailable."] := by
  cases content with
  | other => simp [getSummary, getSummaryTry, fallbackText]
  | string s =>
    obtain ⟨chunks, hc⟩ := chunkContent_chunkWords s
    have h1 := h s chunks rfl hc
    by_cases hex : ∃ j, ∃ hj : j < chunks.length, callFails (endpoint j chunks[j])
    · obtain ⟨j, hj, hfail⟩ := hex
      exact getSummary_of_failed_call endpoint s chunks hc j hj hfail
    · push_neg at hex
      have hok := fetchLoop_ok endpoint chunks 0 []
        (by intro j hj; simpa using hex j hj)
      have hnil := chunkTexts_filter_nil endpoint chunks 0
        (by
          intro j hj
          rcases h1 j hj with hf | hn
          · exact absurd hf (hex j hj)
          · simpa using hn)
      simp [getSummary, getSummaryTry, hc, hok, hnil, assemble, fallbackText]

theorem getSummary_fallback_when_no_text_witness :
    getSummary (fun _ _ => Reply.entry none) (.string (utf16 "hello"))
      = .returns [utf16 "AI summary unavailable."] :=
  getSummary_fallback_when_no_text (fun _ _ => Reply.entry none) (.string (utf16 "hello"))
    (fun _ _ _ _ _ _ => Or.inr (fun text ht => by cases ht; rfl))

/-- C4: `getSummary` never propagates an error. For every content, string or
not, and every behaviour of the endpoint, the call completes and returns a
list of strings: it neither throws nor diverges. -/
theorem getSummary_always_returns (endpoint : Endpoint) (content : JSValue) :
    ∃ bullets : List JSString, getSummary endpoint content = .returns bullets := by
  cases content with
  | other => exact ⟨[fallbackText], by simp [getSummary, getSummaryTry]⟩
  | string s =>
    obtain ⟨chunks, hc⟩ := chunkContent_chunkWords s
    cases hf : fetchLoop endpoint 0 chunks [] with
    | error e => exact ⟨[fallbackText], by simp [getSummary, getSummaryTry, hc, hf]⟩
    | ok summaries => exact ⟨assemble summaries, by simp [getSummary, getSummaryTry, hc, hf]⟩

/-- C10: when no call fails and at least one chunk yields non-empty summary
text, the result of `getSummary` is the first min(8, k) of the k retained,
cleaned segments of the combined summary, in their order, and so has at
most 8 entries. -/
theorem getSummary_first_eight_segments (endpoint : Endpoint) (s : JSString)
    (chunks : List JSString) (hc : chunkContent s chunkWords = some chunks)
    (hok : ∀ j (hj : j < chunks.length), ¬ callFails (endpoint j chunks[j]))
    (htext : ∃ j, ∃ hj : j < chunks.length, ¬ noUsableText (endpoint j chunks[j])) :
    ∃ bullets : List JSString,
      getSummary endpoint (.string s) = .returns bullets
      ∧ bullets = (retainedSegments endpoint chunks).take
          (min 8 (retainedSegments endpoint chunks).length)
      ∧ bullets.length = min 8 (retainedSegments endpoint chunks).length
      ∧ bullets <+: retainedSegments endpoint chunks
      ∧ bullets.length ≤ 8 := by
  have hloop := fetchLoop_ok endpoint chunks 0 [] (by intro j hj; simpa using hok j hj)
  obtain ⟨j, hj, hne⟩ := htext
  have hnonempty := chunkTexts_filter_ne_nil endpoint chunks 0 j hj (by simpa using hne)
  have hlen : ((chunkTexts endpoint 0 chunks).filter truthy).length ≠ 0 := by
    simpa using hnonempty
  have htake : (retainedSegments endpoint chunks).take
      (min 8 (retainedSegments endpoint chunks).length)
      = (retainedSegments endpoint chunks).take 8 := by
    by_cases h8 : 8 ≤ (retainedSegments endpoint chunks).length
    · rw [Nat.min_eq_left h8]
    · rw [Nat.min_eq_right (by omega), List.take_length,
        List.take_of_length_le (by omega)]
  refine ⟨(retainedSegments endpoint chunks).take 8, ?_, htake.symm, ?_, ?_, ?_⟩
  · simp [getSummary, getSummaryTry, hc, hloop, assemble, hlen, retainedSegments,
      combinedSummary]
  · simp
  · exact List.take_prefix _ _
  · simp

theorem getSummary_first_eight_segments_witness :
    getSummary (fun _ _ => Reply.entry (some (utf16 "Sentence number one. Sentence number two.")))
        (.string (utf16 "hello"))
      = .returns [utf16 "Sentence number one", utf16 "Sentence number two"] := by
  obtain ⟨bullets, h1, h2, -⟩ := getSummary_first_eight_segments
    (fun _ _ => Reply.entry (some (utf16 "Sentence number one. Sentence number two.")))
    (utf16 "hello") [utf16 "hello"] (by decide)
    (fun j hj => by rintro ⟨e, he⟩; cases he)
    ⟨0, by decide, fun h => by
      have := h (utf16 "Sentence number one. Sentence number two.") rfl
      revert this
      decide⟩
  rw [h1, h2]
  decide

/-! ## Lemmas on the cleaning of segments -/

theorem trim_eq_rdropWhile (s : JSString) :
    trim s = List.rdropWhile isWhitespace (s.dropWhile isWhitespace) := rfl

theorem trim_head_not_whitespace (s : JSString) (c : Nat)
    (h : (trim s).head? = some c) : isWhitespace c = false := by
  have hpre : trim s <+: s.dropWhile isWhitespace := by
    rw [trim_eq_rdropWhile]
    exact List.rdropWhile_prefix _ _
  obtain ⟨t, ht⟩ := hpre
  cases hts : trim s with
  | nil => simp [hts] at h
  | cons a r =>
    rw [hts] at h ht
    simp only [List.head?_cons, Option.some.injEq] at h
    subst h
    have hne : s.dropWhile isWhitespace ≠ [] := by
      rw [← ht]
      simp
    have := List.head_dropWhile_not isWhitespace s hne
    simpa [← ht] using this

theorem trim_getLast_not_whitespace (s : JSString) (c : Nat)
    (h : (trim s).getLast? = some c) : isWhitespace c = false := by
  have hne : trim s ≠ [] := by
    intro h0
    simp [h0] at h
  have h1 : List.rdropWhile isWhitespace (s.dropWhile isWhitespace) ≠ [] := by
    rw [← trim_eq_rdropWhile]
    exact hne
  have h2 := List.rdropWhile_last_not isWhitespace (s.dropWhile isWhitespace) h1
  have h3 : (trim s).getLast hne = c := by
    rw [List.getLast?_eq_getLast _ hne] at h
    exact Option.some.inj h
  have h4 : (List.rdropWhile isWhitespace (s.dropWhile isWhitespace)).getLast h1 = c := by
    rw [← h3]
    rfl
  rw [h4] at h2
  simpa using h2

theorem stripFinalDot_cases (s : JSString) :
    (s = stripFinalDot s ++ [dot]) ∨ (stripFinalDot s = s ∧ s.getLast? ≠ some dot) := by
  unfold stripFinalDot
  by_cases h : s.getLast? = some dot
  · left
    simp only [h, if_true]
    have hne : s ≠ [] := by
      intro h0
      simp [h0] at h
    have h2 : s.getLast hne = dot := by
      rw [List.getLast?_eq_getLast _ hne] at h
      exact Option.some.inj h
    rw [← h2]
    exact (List.dropLast_append_getLast hne).symm
  · right
    simp [h]

theorem stripFinalDot_length (s : JSString) : s.length ≤ (stripFinalDot s).length + 1 := by
  rcases stripFinalDot_cases s with h | ⟨h, -⟩
  · have := congrArg List.length h
    simp only [List.length_append, List.length_singleton] at this
    omega
  · rw [h]
    omega

theorem cleanLine_head_not_whitespace (line : JSString) (c : Nat)
    (h : (cleanLine line).head? = some c) : isWhitespace c = false := by
  unfold cleanLine at h
  rcases stripFinalDot_cases (trim line) with h1 | ⟨h1, -⟩
  · apply trim_head_not_whitespace line c
    rw [h1]
    cases hs : stripFinalDot (trim line) with
    | nil => simp [hs] at h
    | cons a r =>
      rw [hs] at h
      simpa using h
  · rw [h1] at h
    exact trim_head_not_whitespace line c h

theorem getSummary_shape (endpoint : Endpoint) (content : JSValue) :
    getSummary endpoint content = .returns [fallbackText] ∨
    ∃ summaries : List JSString, summaries ≠ [] ∧
      getSummary endpoint content = .returns
        ((((splitSentences (join [space] summaries)).filter keepLine).map cleanLine).take 8) := by
  cases content with
  | other => left; simp [getSummary, getSummaryTry]
  | string s =>
    obtain ⟨chunks, hc⟩ := chunkContent_chunkWords s
    cases hf : fetchLoop endpoint 0 chunks [] with
    | error e => left; simp [getSummary, getSummaryTry, hc, hf]
    | ok summaries =>
      by_cases h0 : summaries.length = 0
      · left
        simp [getSummary, getSummaryTry, hc, hf, assemble, h0]
      · right
        refine ⟨summaries, ?_, ?_⟩
        · intro h
          simp [h] at h0
        · simp [getSummary, getSummaryTry, hc, hf, assemble, h0]

theorem getSummary_eq_take (endpoint : Endpoint) (s : JSString)
    (chunks : List JSString) (hc : chunkContent s chunkWords = some chunks)
    (hok : ∀ j (hj : j < chunks.length), ¬ callFails (endpoint j chunks[j]))
    (hne : (chunkTexts endpoint 0 chunks).filter truthy ≠ []) :
    getSummary endpoint (.string s) = .returns ((retainedSegments endpoint chunks).take 8) := by
  have hloop := fetchLoop_ok endpoint chunks 0 [] (by intro j hj; simpa using hok j hj)
  have hlen : ((chunkTexts endpoint 0 chunks).filter truthy).length ≠ 0 := by
    simpa using hne
  simp [getSummary, getSummaryTry, hc, hloop, assemble, hlen, retainedSegments,
    combinedSummary]

/-! ## Properties of the bullet points -/

/-- C11, as stated, fails: the length test is made before trimming. When the
endpoint answers "hello" with the summary " Short one." (11 characters with
its leading space), the segment passes `line.length > 10` and the entry
returned is "Short one", of 9 characters. -/
theorem getSummary_entry_under_ten :
    getSummary (fun _ _ => .entry (some (utf16 " Short one."))) (.string (utf16 "hello"))
      = .returns [utf16 "Short one"]
    ∧ (trim (utf16 "Short one")).length = 9 := by
  decide

theorem keepLine_eq_longSegment (line : JSString) : keepLine line = longSegment line := by
  have h1 : truthy (trim line) = line.any (fun c => !isWhitespace c) := by
    rw [Bool.eq_iff_iff]
    have := nonBlank_iff line
    unfold nonBlank at this
    rw [this, List.any_eq_true]
    simp
  simp only [keepLine, longSegment, h1, gt_iff_lt]

theorem filter_keepLine (l : List JSString) : l.filter keepLine = l.filter longSegment := by
  have : keepLine = longSegment := funext keepLine_eq_longSegment
  rw [this]

theorem longSegment_iff (line : JSString) :
    longSegment line = true ↔ (∃ c ∈ line, isWhitespace c = false) ∧ 10 < line.length := by
  simp [longSegment, List.any_eq_true]

theorem getSummary_cases (endpoint : Endpoint) (s : JSString)
    (chunks : List JSString) (hc : chunkContent s chunkWords = some chunks) :
    getSummary endpoint (.string s) = .returns [fallbackText]
    ∨ getSummary endpoint (.string s)
        = .returns ((((splitSentences (combinedSummary endpoint chunks)).filter
            longSegment).map cleanLine).take 8) := by
  by_cases hex : ∃ j, ∃ hj : j < chunks.length, callFails (endpoint j chunks[j])
  · obtain ⟨j, hj, hfail⟩ := hex
    exact Or.inl (getSummary_of_failed_call endpoint s chunks hc j hj hfail)
  · push_neg at hex
    by_cases hne : (chunkTexts endpoint 0 chunks).filter truthy = []
    · left
      have hloop := fetchLoop_ok endpoint chunks 0 [] (by intro j hj; simpa using hex j hj)
      simp [getSummary, getSummaryTry, hc, hloop, hne, assemble]
    · right
      rw [getSummary_eq_take endpoint s chunks hc hex hne, retainedSegments, filter_keepLine]

theorem segments_of_no_text (endpoint : Endpoint) (chunks : List JSString)
    (h : (chunkTexts endpoint 0 chunks).filter truthy = []) :
    (splitSentences (combinedSummary endpoint chunks)).filter longSegment = [] := by
  have hcs : combinedSummary endpoint chunks = [] := by
    simp [combinedSummary, h, join_nil]
  rw [hcs]
  decide

/-- C11, amended: for every content and every behaviour of the endpoint,
`getSummary` returns either the fallback list or a list whose entries are,
in order, the cleaned forms of segments of the combined summary that hold a
character other than whitespace and have more than 10 characters, counted
before trimming; such an entry has at least 10 characters when its segment
has no surrounding whitespace. -/
theorem getSummary_entries_from_long_segments (endpoint : Endpoint) (content : JSValue) :
    ∃ bullets : List JSString, getSummary endpoint content = .returns bullets
      ∧ (bullets = [fallbackText]
          ∨ ∃ (s : JSString) (chunks lines : List JSString),
              content = .string s ∧ chunkContent s chunkWords = some chunks
              ∧ lines.Sublist (splitSentences (combinedSummary endpoint chunks))
              ∧ bullets = lines.map cleanLine
              ∧ ∀ line ∈ lines, (∃ c ∈ line, isWhitespace c = false) ∧ 10 < line.length
                  ∧ (trim line = line → 10 ≤ (cleanLine line).length)) := by
  cases content with
  | other => exact ⟨[fallbackText], by simp [getSummary, getSummaryTry], Or.inl rfl⟩
  | string s =>
    obtain ⟨chunks, hc⟩ := chunkContent_chunkWords s
    rcases getSummary_cases endpoint s chunks hc with h | h
    · exact ⟨_, h, Or.inl rfl⟩
    · refine ⟨_, h, Or.inr ⟨s, chunks,
        ((splitSentences (combinedSummary endpoint chunks)).filter longSegment).take 8,
        rfl, hc, ?_, ?_, ?_⟩⟩
      · exact (List.take_sublist _ _).trans (List.filter_sublist _)
      · rw [List.map_take]
      · intro line hline
        have hmem := List.mem_of_mem_take hline
        obtain ⟨-, hlong⟩ := List.mem_filter.1 hmem
        obtain ⟨hnb, hlen⟩ := (longSegment_iff line).1 hlong
        refine ⟨hnb, hlen, ?_⟩
        intro htrim
        have := stripFinalDot_length (trim line)
        rw [htrim] at this
        unfold cleanLine
        rw [htrim]
        omega

/-- C12, as stated, fails: the filter is `line.length > 10`, so a segment of
exactly 10 characters is dropped. The summary
"Exactly 10. This sentence is long enough." splits into "Exactly 10" and
"This sentence is long enough."; the first, non-blank and 10 characters
long, is not in the output. -/
theorem getSummary_drops_segment_of_ten :
    splitSentences (utf16 "Exactly 10. This sentence is long enough.")
      = [utf16 "Exactly 10", utf16 "This sentence is long enough."]
    ∧ (utf16 "Exactly 10").length = 10
    ∧ nonBlank (utf16 "Exactly 10") = true
    ∧ getSummary (fun _ _ => .entry (some (utf16 "Exactly 10. This sentence is long enough.")))
        (.string (utf16 "hello"))
      = .returns [utf16 "This sentence is long enough"] := by
  decide

/-- C12, amended: when no call fails, the assembler keeps exactly the
segments of the combined summary that hold a character other than whitespace
and have more than 10 characters (at least 11): every such segment is kept,
every segment that is blank or has at most 10 characters is dropped, and the
output of `getSummary` is the cleaned forms of the first 8 kept segments, in
order (the fallback list when no chunk yields text, in which case no segment
is kept). -/
theorem getSummary_keeps_segments_over_ten (endpoint : Endpoint) (s : JSString)
    (chunks : List JSString) (hc : chunkContent s chunkWords = some chunks)
    (hok : ∀ j (hj : j < chunks.length), ¬ callFails (endpoint j chunks[j])) :
    ∃ bullets : List JSString, getSummary endpoint (.string s) = .returns bullets
      ∧ (bullets = (((splitSentences (combinedSummary endpoint chunks)).filter
            longSegment).map cleanLine).take 8
          ∨ ((splitSentences (combinedSummary endpoint chunks)).filter longSegment = []
              ∧ bullets = [fallbackText]))
      ∧ (∀ line ∈ splitSentences (combinedSummary endpoint chunks),
          (∃ c ∈ line, isWhitespace c = false) → 10 < line.length →
          line ∈ (splitSentences (combinedSummary endpoint chunks)).filter longSegment)
      ∧ (∀ line, (allWhitespace line ∨ line.length ≤ 10) →
          line ∉ (splitSentences (combinedSummary endpoint chunks)).filter longSegment)
      ∧ (∀ i line, i < 8 →
          ((splitSentences (combinedSummary endpoint chunks)).filter longSegment)[i]?
            = some line →
          bullets[i]? = some (cleanLine line)) := by
  have hkeep : ∀ line ∈ splitSentences (combinedSummary endpoint chunks),
      (∃ c ∈ line, isWhitespace c = false) → 10 < line.length →
      line ∈ (splitSentences (combinedSummary endpoint chunks)).filter longSegment :=
    fun line hline hnb hlen => List.mem_filter.2 ⟨hline, (longSegment_iff line).2 ⟨hnb, hlen⟩⟩
  have hdrop : ∀ line, (allWhitespace line ∨ line.length ≤ 10) →
      line ∉ (splitSentences (combinedSummary endpoint chunks)).filter longSegment := by
    intro line hbad hmem
    obtain ⟨-, hlong⟩ := List.mem_filter.1 hmem
    obtain ⟨⟨c, hc1, hc2⟩, hlen⟩ := (longSegment_iff line).1 hlong
    rcases hbad with hblank | hshort
    · have := hblank c hc1
      rw [hc2] at this
      cases this
    · omega
  by_cases hne : (chunkTexts endpoint 0 chunks).filter truthy = []
  · have hloop := fetchLoop_ok endpoint chunks 0 [] (by intro j hj; simpa using hok j hj)
    have hnone := segments_of_no_text endpoint chunks hne
    refine ⟨[fallbackText], ?_, Or.inr ⟨hnone, rfl⟩, hkeep, hdrop, ?_⟩
    · simp [getSummary, getSummaryTry, hc, hloop, hne, assemble]
    · intro i line _ hget
      rw [hnone] at hget
      simp at hget
  · refine ⟨_, ?_, Or.inl rfl, hkeep, hdrop, ?_⟩
    · rw [getSummary_eq_take endpoint s chunks hc hok hne, retainedSegments, filter_keepLine]
    · intro i line hi hget
      rw [List.getElem?_take_of_lt hi]
      simp [List.getElem?_map, hget]

theorem getSummary_keeps_segments_over_ten_witness :
    getSummary
        (fun _ _ => Reply.entry
          (some (utf16 "            . Exactly 10. Eleven char. This sentence is long enough.")))
        (.string (utf16 "hello"))
      = .returns [utf16 "Eleven char", utf16 "This sentence is long enough"] := by
  obtain ⟨bullets, h1, h2, -⟩ := getSummary_keeps_segments_over_ten
    (fun _ _ => Reply.entry
      (some (utf16 "            . Exactly 10. Eleven char. This sentence is long enough.")))
    (utf16 "hello") [utf16 "hello"] (by decide)
    (fun j hj => by rintro ⟨e, he⟩; cases he)
  rw [h1]
  rcases h2 with h | ⟨h, -⟩
  · rw [h]
    decide
  · exact absurd h (by decide)

/-- C13, as stated, fails: only one final full stop is removed, and nothing
is trimmed after its removal. The summary "This is a sentence.." gives the
entry "This is a sentence.", which ends with a full stop; the summary
"This is a sentence ." gives the entry "This is a sentence ", which ends
with a space. -/
theorem getSummary_entry_ends_with_dot_or_space :
    getSummary (fun _ _ => .entry (some (utf16 "This is a sentence.."))) (.string (utf16 "hello"))
      = .returns [utf16 "This is a sentence."]
    ∧ getSummary (fun _ _ => .entry (some (utf16 "This is a sentence ."))) (.string (utf16 "hello"))
      = .returns [utf16 "This is a sentence "] := by
  decide

/-- C13, amended: when no call fails and some chunk yields text, every entry
of the result of `getSummary` is a segment of the combined summary, trimmed
of its surrounding whitespace and then relieved of one final full stop if
there is one. No entry begins with a whitespace character, and an entry
whose trimmed segment had no final full stop ends neither with a full stop
nor with a whitespace character. -/
theorem getSummary_entries_cleaned (endpoint : Endpoint) (s : JSString)
    (chunks : List JSString) (hc : chunkContent s chunkWords = some chunks)
    (hok : ∀ j (hj : j < chunks.length), ¬ callFails (endpoint j chunks[j]))
    (htext : ∃ j, ∃ hj : j < chunks.length, ¬ noUsableText (endpoint j chunks[j])) :
    ∃ bullets : List JSString, getSummary endpoint (.string s) = .returns bullets
      ∧ ∀ b ∈ bullets, ∃ line ∈ splitSentences (combinedSummary endpoint chunks),
          (∀ c, b.head? = some c → isWhitespace c = false)
          ∧ (trim line = b ++ [dot]
              ∨ (trim line = b ∧ ∀ c, b.getLast? = some c → c ≠ dot ∧ isWhitespace c = false)) := by
  obtain ⟨j, hj, hne⟩ := htext
  have hnonempty := chunkTexts_filter_ne_nil endpoint chunks 0 j hj (by simpa using hne)
  refine ⟨_, getSummary_eq_take endpoint s chunks hc hok hnonempty, ?_⟩
  intro b hb
  have hb2 := List.mem_of_mem_take hb
  unfold retainedSegments at hb2
  obtain ⟨line, hline, rfl⟩ := List.mem_map.1 hb2
  obtain ⟨hseg, -⟩ := List.mem_filter.1 hline
  refine ⟨line, hseg, cleanLine_head_not_whitespace line, ?_⟩
  unfold cleanLine
  rcases stripFinalDot_cases (trim line) with h1 | ⟨h1, h2⟩
  · exact Or.inl h1
  · right
    refine ⟨h1.symm, ?_⟩
    intro c hcl
    rw [h1] at hcl
    refine ⟨?_, trim_getLast_not_whitespace line c hcl⟩
    intro hd
    subst hd
    exact h2 hcl

theorem getSummary_entries_cleaned_witness :
    ∃ bullets : List JSString,
      getSummary (fun _ _ => Reply.entry (some (utf16 " First sentence here.  Second sentence here. ")))
          (.string (utf16 "hello")) = .returns bullets
      ∧ ∀ b ∈ bullets, ∃ line ∈ splitSentences (combinedSummary
            (fun _ _ => Reply.entry (some (utf16 " First sentence here.  Second sentence here. ")))
            [utf16 "hello"]),
          (∀ c, b.head? = some c → isWhitespace c = false)
          ∧ (trim line = b ++ [dot]
              ∨ (trim line = b ∧ ∀ c, b.getLast? = some c → c ≠ dot ∧ isWhitespace c = false)) :=
  getSummary_entries_cleaned
    (fun _ _ => Reply.entry (some (utf16 " First sentence here.  Second sentence here. ")))
    (utf16 "hello") [utf16 "hello"] (by decide)
    (fun j hj => by rintro ⟨e, he⟩; cases he)
    ⟨0, by decide, fun h => by
      have := h (utf16 " First sentence here.  Second sentence here. ") rfl
      revert this
      decide⟩

/-! ## Lemmas on the split into sentences -/

theorem join_append (sep : JSString) :
    ∀ (a b : List JSString), a ≠ [] → b ≠ [] →
      join sep (a ++ b) = join sep a ++ (sep ++ join sep b) := by
  intro a
  induction a with
  | nil => intro b h; exact absurd rfl h
  | cons x t ih =>
    intro b _ hb
    cases t with
    | nil =>
      obtain ⟨y, r, rfl⟩ := List.exists_cons_of_ne_nil hb
      simp [join_cons_cons, join_singleton]
    | cons y r =>
      have := ih b (by simp) hb
      simp only [List.cons_append] at this ⊢
      rw [join_cons_cons, join_cons_cons, this]
      simp

theorem splitSentencesAux_ne_nil (skipping : Bool) (s : JSString) :
    splitSentencesAux skipping s ≠ [] := by
  induction s generalizing skipping with
  | nil => simp [splitSentencesAux]
  | cons c cs ih =>
    unfold splitSentencesAux
    split
    · exact ih true
    · split
      · simp
      · cases h : splitSentencesAux false cs <;> simp [pushFront]

theorem splitSentencesAux_append_plain :
    ∀ (t rest x : JSString) (xs : List JSString), dot ∉ t →
      splitSentencesAux false rest = x :: xs →
      splitSentencesAux false (t ++ rest) = (t ++ x) :: xs := by
  intro t
  induction t with
  | nil => intro rest x xs _ h; simpa using h
  | cons c cs ih =>
    intro rest x xs hdot h
    have hc : c ≠ dot := by
      intro hcd
      exact hdot (by simp [hcd])
    have hcs : dot ∉ cs := fun hm => hdot (List.mem_cons_of_mem _ hm)
    have := ih rest x xs hcs h
    simp [splitSentencesAux, hc, this, pushFront]

theorem splitSentencesAux_skip (c : Nat) (cs : JSString) (hc : isWhitespace c = false) :
    splitSentencesAux true (c :: cs) = splitSentencesAux false (c :: cs) := by
  simp [splitSentencesAux, hc]

theorem splitSentencesAux_separator (rest : JSString) :
    splitSentencesAux false (dot :: space :: rest) = [] :: splitSentencesAux true rest := by
  have hs : isWhitespace space = true := by decide
  simp [splitSentencesAux, hs]

theorem plainSentence_head (t : JSString) (h : plainSentence t) :
    ∃ c cs, t = c :: cs ∧ isWhitespace c = false := by
  obtain ⟨-, htrim, hlen⟩ := h
  cases t with
  | nil => simp at hlen
  | cons c cs =>
    refine ⟨c, cs, rfl, ?_⟩
    apply trim_head_not_whitespace (c :: cs) c
    rw [htrim]
    rfl

theorem splitSentences_render :
    ∀ (l : List JSString), (∀ t ∈ l, plainSentence t) → l ≠ [] →
      splitSentencesAux false (renderSentences l) = dotLast l := by
  intro l
  induction l with
  | nil => intro _ h; exact absurd rfl h
  | cons t r ih =>
    intro hall _
    have ht := hall t (by simp)
    cases r with
    | nil =>
      have hlast : splitSentencesAux false [dot] = [[dot]] := by decide
      have := splitSentencesAux_append_plain t [dot] [dot] [] ht.1 hlast
      simpa [renderSentences, join_singleton, dotLast] using this
    | cons u r2 =>
      have hrest := ih (fun x hx => hall x (by simp [hx])) (by simp)
      obtain ⟨c, cs, hu, hcw⟩ := plainSentence_head u (hall u (by simp))
      have hrender : renderSentences (t :: u :: r2)
          = t ++ (dot :: space :: renderSentences (u :: r2)) := by
        simp [renderSentences, join_cons_cons]
      have hstart : ∃ d ds, renderSentences (u :: r2) = d :: ds ∧ isWhitespace d = false := by
        refine ⟨c, cs ++ (join [dot, space] (u :: r2) ++ [dot]).drop (c :: cs).length, ?_, hcw⟩
        subst hu
        cases r2 with
        | nil => simp [renderSentences, join_singleton]
        | cons v r3 => simp [renderSentences, join_cons_cons]
      obtain ⟨d, ds, hd, hdw⟩ := hstart
      have hsep : splitSentencesAux false (dot :: space :: renderSentences (u :: r2))
          = [] :: dotLast (u :: r2) := by
        rw [splitSentencesAux_separator, hd, splitSentencesAux_skip d ds hdw, ← hd, hrest]
      rw [hrender, splitSentencesAux_append_plain t _ [] _ ht.1 hsep]
      simp [dotLast]

theorem trim_eq_self_of_ends (s : JSString)
    (hhead : ∀ c, s.head? = some c → isWhitespace c = false)
    (hlast : ∀ c, s.getLast? = some c → isWhitespace c = false) : trim s = s := by
  have h1 : s.dropWhile isWhitespace = s := by
    cases s with
    | nil => rfl
    | cons c cs =>
      have := hhead c rfl
      simp [List.dropWhile_cons, this]
  rw [trim_eq_rdropWhile, h1, List.rdropWhile_eq_self_iff]
  intro hl
  have := hlast (s.getLast hl) (List.getLast?_eq_getLast _ hl)
  simp [this]

theorem cleanLine_plain (t : JSString) (h : plainSentence t) :
    keepLine t = true ∧ cleanLine t = t := by
  obtain ⟨hdot, htrim, hlen⟩ := h
  have hne : t ≠ [] := by
    intro h0
    simp [h0] at hlen
  refine ⟨?_, ?_⟩
  · simp only [keepLine, Bool.and_eq_true, decide_eq_true_eq]
    refine ⟨?_, hlen⟩
    rw [htrim]
    cases t with
    | nil => exact absurd rfl hne
    | cons a r => rfl
  · unfold cleanLine
    rw [htrim]
    rcases stripFinalDot_cases t with h1 | ⟨h1, -⟩
    · exfalso
      apply hdot
      rw [h1]
      simp
    · exact h1

theorem cleanLine_plain_dot (t : JSString) (h : plainSentence t) :
    keepLine (t ++ [dot]) = true ∧ cleanLine (t ++ [dot]) = t := by
  obtain ⟨c, cs, hcs, hcw⟩ := plainSentence_head t h
  obtain ⟨-, -, hlen⟩ := h
  have hd : isWhitespace dot = false := by decide
  have htrim : trim (t ++ [dot]) = t ++ [dot] := by
    apply trim_eq_self_of_ends
    · intro x hx
      rw [hcs] at hx
      simp only [List.cons_append, List.head?_cons, Option.some.injEq] at hx
      rw [← hx]
      exact hcw
    · intro x hx
      have hx2 : x = dot := by
        simpa [List.getLast?_append, Option.or] using hx.symm
      rw [hx2]
      exact hd
  refine ⟨?_, ?_⟩
  · simp only [keepLine, Bool.and_eq_true, decide_eq_true_eq, htrim, List.length_append,
      List.length_singleton]
    refine ⟨?_, by omega⟩
    rw [hcs]
    rfl
  · unfold cleanLine
    rw [htrim]
    unfold stripFinalDot
    simp

theorem clean_dotLast :
    ∀ (l : List JSString), (∀ t ∈ l, plainSentence t) →
      ((dotLast l).filter keepLine).map cleanLine = l := by
  intro l
  induction l with
  | nil => intro _; simp [dotLast]
  | cons t r ih =>
    intro hall
    have ht := hall t (by simp)
    cases r with
    | nil =>
      obtain ⟨h1, h2⟩ := cleanLine_plain_dot t ht
      simp [dotLast, List.filter_cons, h1, h2]
    | cons u r2 =>
      obtain ⟨h1, h2⟩ := cleanLine_plain t ht
      have := ih (fun x hx => hall x (by simp [hx]))
      simp only [dotLast, List.filter_cons, h1, if_true, List.map_cons, h2, this]

theorem renderSentences_ne_nil (l : List JSString) (h : l ≠ []) : renderSentences l ≠ [] := by
  obtain ⟨a, t, rfl⟩ := List.exists_cons_of_ne_nil h
  simp [renderSentences]

theorem renderSentences_append (a b : List JSString) (ha : a ≠ []) (hb : b ≠ []) :
    renderSentences (a ++ b) = renderSentences a ++ (space :: renderSentences b) := by
  obtain ⟨x, t, rfl⟩ := List.exists_cons_of_ne_nil ha
  obtain ⟨y, r, rfl⟩ := List.exists_cons_of_ne_nil hb
  have := join_append [dot, space] (x :: t) (y :: r) (by simp) (by simp)
  simp only [List.cons_append] at this
  simp [renderSentences, this]

theorem join_render :
    ∀ (ls : List (List JSString)), (∀ l ∈ ls, l ≠ []) →
      join [space] (ls.map renderSentences) = renderSentences ls.flatten := by
  intro ls
  induction ls with
  | nil => intro _; simp [join_nil, renderSentences]
  | cons a t ih =>
    intro hall
    have ha := hall a (by simp)
    have iht := ih (fun l hl => hall l (by simp [hl]))
    cases t with
    | nil => simp [join_singleton]
    | cons b r =>
      have hb := hall b (by simp)
      have hflat : (b :: r).flatten ≠ [] := by
        obtain ⟨y, ys, rfl⟩ := List.exists_cons_of_ne_nil hb
        simp
      simp only [List.map_cons, List.flatten_cons] at iht ⊢
      rw [join_cons_cons, iht]
      have := renderSentences_append a (b ++ r.flatten) ha (by simpa using hflat)
      rw [this]
      simp

theorem chunkTexts_eq_map (endpoint : Endpoint) (f : Nat → JSString) :
    ∀ (chunks : List JSString) (k : Nat),
      (∀ j (hj : j < chunks.length), fetchSummary (endpoint (k + j) (chunks.get ⟨j, hj⟩))
        = .ok (f (k + j))) →
      chunkTexts endpoint k chunks = (List.range' k chunks.length).map f := by
  intro chunks
  induction chunks with
  | nil => intro k _; simp [chunkTexts]
  | cons c rest ih =>
    intro k h
    have h0 := h 0 (by simp)
    simp only [Nat.add_zero, List.get_eq_getElem, List.getElem_cons_zero] at h0
    have hrest : ∀ j (hj : j < rest.length),
        fetchSummary (endpoint (k + 1 + j) (rest.get ⟨j, hj⟩)) = .ok (f (k + 1 + j)) := by
      intro j hj
      have := h (j + 1) (by simp; omega)
      simpa [Nat.add_assoc, Nat.add_comm 1 j] using this
    simp [chunkTexts, h0, ih (k + 1) hrest, List.range'_succ]

theorem chunkContent_ne_nil (content : JSString) (m : Nat) (hm : 0 < m)
    (chunks : List JSString) (hc : chunkContent content m = some chunks) : chunks ≠ [] := by
  rw [chunkContent_eq content m hm] at hc
  have := Option.some.inj hc
  rw [← this]
  split
  · next h => exact List.ne_nil_of_length_pos h
  · simp

theorem retainedSegments_of_sentences (endpoint : Endpoint) (chunks : List JSString)
    (hchunks : chunks ≠ []) (sentences : Nat → List JSString)
    (hreply : ∀ j (hj : j < chunks.length),
      fetchSummary (endpoint j chunks[j]) = .ok (renderSentences (sentences j)))
    (hne : ∀ j, j < chunks.length → sentences j ≠ [])
    (hplain : ∀ j, j < chunks.length → ∀ t ∈ sentences j, plainSentence t) :
    (chunkTexts endpoint 0 chunks).filter truthy ≠ []
    ∧ retainedSegments endpoint chunks
        = ((List.range chunks.length).map sentences).flatten := by
  have htexts : chunkTexts endpoint 0 chunks
      = ((List.range chunks.length).map sentences).map renderSentences := by
    rw [chunkTexts_eq_map endpoint (fun j => renderSentences (sentences j)) chunks 0
      (by intro j hj; simpa using hreply j hj), List.range_eq_range', List.map_map]
    rfl
  have hall : ∀ l ∈ (List.range chunks.length).map sentences, l ≠ [] := by
    intro l hl
    obtain ⟨j, hj, rfl⟩ := List.mem_map.1 hl
    exact hne j (List.mem_range.1 hj)
  have hfilter : (chunkTexts endpoint 0 chunks).filter truthy = chunkTexts endpoint 0 chunks := by
    rw [List.filter_eq_self, htexts]
    intro text htext
    obtain ⟨l, hl, rfl⟩ := List.mem_map.1 htext
    have := renderSentences_ne_nil l (hall l hl)
    cases h : renderSentences l with
    | nil => exact absurd h this
    | cons a r => rfl
  have hpos : 0 < chunks.length := List.length_pos.2 hchunks
  have hflat : ((List.range chunks.length).map sentences).flatten ≠ [] := by
    obtain ⟨n, hn⟩ : ∃ n, chunks.length = n + 1 := ⟨chunks.length - 1, by omega⟩
    have h0 := hne 0 hpos
    obtain ⟨a, r, har⟩ := List.exists_cons_of_ne_nil h0
    rw [hn, List.range_succ_eq_map]
    simp [har]
  have hplainAll : ∀ t ∈ ((List.range chunks.length).map sentences).flatten, plainSentence t := by
    intro t ht
    obtain ⟨l, hl, htl⟩ := List.mem_flatten.1 ht
    obtain ⟨j, hj, rfl⟩ := List.mem_map.1 hl
    exact hplain j (List.mem_range.1 hj) t htl
  refine ⟨?_, ?_⟩
  · rw [hfilter, htexts]
    obtain ⟨n, hn⟩ : ∃ n, chunks.length = n + 1 := ⟨chunks.length - 1, by omega⟩
    rw [hn, List.range_succ_eq_map]
    simp
  · unfold retainedSegments combinedSummary splitSentences
    rw [hfilter, htexts, join_render _ hall, splitSentences_render _ hplainAll hflat,
      clean_dotLast _ hplainAll]

/-! ## Sentences across chunk boundaries -/

/-- C14: sentences are assembled across chunk boundaries. If every call
succeeds and the summary of each chunk is the text "s1. s2. ... sk." of
k >= 1 sentences that are free of full stops and of surrounding whitespace
and longer than 10 characters, `getSummary` returns the first 8 of all these
sentences, without their full stops, ordered by chunk and then by position
in the chunk. -/
theorem getSummary_sentences_across_chunks (endpoint : Endpoint) (s : JSString)
    (chunks : List JSString) (hc : chunkContent s chunkWords = some chunks)
    (sentences : Nat → List JSString)
    (hreply : ∀ j (hj : j < chunks.length),
      fetchSummary (endpoint j chunks[j]) = .ok (renderSentences (sentences j)))
    (hne : ∀ j, j < chunks.length → sentences j ≠ [])
    (hplain : ∀ j, j < chunks.length → ∀ t ∈ sentences j, plainSentence t) :
    getSummary endpoint (.string s)
      = .returns ((((List.range chunks.length).map sentences).flatten).take 8) := by
  have hchunks := chunkContent_ne_nil s chunkWords (by decide) chunks hc
  obtain ⟨h1, h2⟩ := retainedSegments_of_sentences endpoint chunks hchunks sentences
    hreply hne hplain
  have hok : ∀ j (hj : j < chunks.length), ¬ callFails (endpoint j chunks[j]) := by
    rintro j hj ⟨e, he⟩
    rw [hreply j hj] at he
    cases he
  rw [getSummary_eq_take endpoint s chunks hc hok h1, h2]

theorem getSummary_sentences_across_chunks_witness :
    getSummary twoSummaries (.string (wordsContent 501))
      = .returns [utf16 "Sentence one", utf16 "Sentence two", utf16 "Sentence three"] := by
  obtain ⟨chunks, hc⟩ := chunkContent_chunkWords (wordsContent 501)
  have hlen : chunks.length = 2 := by
    have h2 : (chunkContent (wordsContent 501) chunkWords).map List.length = some 2 := by
      set_option maxRecDepth 100000 in decide
    rw [hc] at h2
    simpa using h2
  have hplain : ∀ j, ∀ t ∈ twoSummariesSentences j, plainSentence t := by
    intro j t ht
    cases j with
    | zero =>
      simp only [twoSummariesSentences, if_true, List.mem_cons, List.mem_singleton,
        List.not_mem_nil, or_false] at ht
      rcases ht with rfl | rfl <;> exact ⟨by decide, by decide, by decide⟩
    | succ n =>
      simp only [twoSummariesSentences, Nat.add_one_ne_zero, if_false,
        List.mem_singleton] at ht
      subst ht
      exact ⟨by decide, by decide, by decide⟩
  rw [getSummary_sentences_across_chunks twoSummaries (wordsContent 501) chunks hc
    twoSummariesSentences
    (fun j _ => by cases j <;> rfl)
    (fun j _ => by cases j <;> simp [twoSummariesSentences])
    (fun j _ => hplain j), hlen]
  decide

/-! ## Lemmas on the chunks of repeated words and on gaps -/

theorem groupsAux_nil {α : Type} (m fuel : Nat) : groupsAux m fuel ([] : List α) = [] := by
  cases fuel <;> rfl

theorem groupsAux_succ {α : Type} (m fuel : Nat) (l : List α) (h : l ≠ []) :
    groupsAux m (fuel + 1) l = l.take m :: groupsAux m fuel (l.drop m) := by
  obtain ⟨a, t, rfl⟩ := List.exists_cons_of_ne_nil h
  rfl

theorem split_append_sep (sep : Nat) (rest : JSString) :
    ∀ (w : JSString), sep ∉ w → split sep (w ++ sep :: rest) = w :: split sep rest := by
  intro w
  induction w with
  | nil => intro _; simp [split]
  | cons c cs ih =>
    intro h
    have hc : c ≠ sep := by
      intro hcs
      exact h (by simp [hcs])
    have := ih (fun hm => h (List.mem_cons_of_mem _ hm))
    simp [split, hc, this, pushFront]

theorem split_repeatedWord (w : JSString) (hw : space ∉ w) (n : Nat) :
    split space (repeatedWord w n) = List.replicate n w ++ [[]] := by
  induction n with
  | zero => simp [repeatedWord, split]
  | succ k ih =>
    have : repeatedWord w (k + 1) = w ++ space :: repeatedWord w k := by
      simp [repeatedWord, List.replicate_succ]
    rw [this, split_append_sep space _ w hw, ih, List.replicate_succ]
    rfl

theorem ceilDiv_small (n m : Nat) (hn : 0 < n) (hnm : n ≤ m) : ceilDiv n m = 1 := by
  unfold ceilDiv
  apply Nat.div_eq_of_lt_le <;> omega

theorem ceilDiv_step (n m : Nat) (hm : 0 < m) (hnm : m ≤ n) :
    ceilDiv n m = ceilDiv (n - m) m + 1 := by
  unfold ceilDiv
  have : n + m - 1 = (n - m + m - 1) + m := by omega
  rw [this, Nat.add_div_right _ hm]

theorem ceilDiv_pos (n m : Nat) (hn : 0 < n) (hm : 0 < m) : 0 < ceilDiv n m := by
  unfold ceilDiv
  apply Nat.div_pos <;> omega

theorem wordCount_join_replicate (w : JSString) (hne : w ≠ [])
    (hw : ∀ c ∈ w, isWhitespace c = false) (n : Nat) (tail : List JSString)
    (htail : tail = [] ∨ tail = [[]]) :
    wordCount (join [space] (List.replicate n w ++ tail)) = n := by
  unfold wordCount
  rw [whitespaceWords_join, List.map_append, List.map_replicate,
    whitespaceWords_word w hne hw]
  have hnil : whitespaceWords [] = [] := rfl
  rcases htail with rfl | rfl <;> simp [hnil]

theorem nonBlank_join_replicate (w : JSString) (hne : w ≠ [])
    (hw : ∀ c ∈ w, isWhitespace c = false) (n : Nat) (hn : 0 < n) (tail : List JSString) :
    nonBlank (join [space] (List.replicate n w ++ tail)) = true := by
  obtain ⟨c, cs, rfl⟩ := List.exists_cons_of_ne_nil hne
  rw [nonBlank_iff]
  refine ⟨c, ?_, hw c (by simp)⟩
  apply mem_join_of_mem _ _ (c :: cs) c
  · apply List.mem_append_left
    obtain ⟨k, rfl⟩ : ∃ k, n = k + 1 := ⟨n - 1, by omega⟩
    simp [List.replicate_succ]
  · simp

theorem counts_repeated (w : JSString) (hne : w ≠ [])
    (hw : ∀ c ∈ w, isWhitespace c = false) (m : Nat) (hm : 0 < m) :
    ∀ (fuel n : Nat), n + 1 ≤ fuel →
      ((((groupsAux m fuel (List.replicate n w ++ [[]])).map (join [space])).filter
          nonBlank).map wordCount)
        = if n = 0 then [] else
            List.replicate (ceilDiv n m - 1) m ++ [n - m * (ceilDiv n m - 1)] := by
  intro fuel
  induction fuel with
  | zero => intro n h; omega
  | succ f ih =>
    intro n hfuel
    rw [groupsAux_succ m f _ (by simp)]
    by_cases hnm : n < m
    · have htake : (List.replicate n w ++ [[]]).take m = List.replicate n w ++ [[]] :=
        List.take_of_length_le (by simp; omega)
      have hdrop : (List.replicate n w ++ [[]]).drop m = [] :=
        List.drop_of_length_le (by simp; omega)
      rw [htake, hdrop, groupsAux_nil]
      by_cases hn0 : n = 0
      · subst hn0
        have : nonBlank (join [space] [[]]) = false := by decide
        simp [List.filter_cons, this]
      · have hnb := nonBlank_join_replicate w hne hw n (by omega) [[]]
        have hwc := wordCount_join_replicate w hne hw n [[]] (Or.inr rfl)
        have hcd := ceilDiv_small n m (by omega) (by omega)
        simp [List.filter_cons, hnb, hwc, hn0, hcd]
    · have hmn : m ≤ n := by omega
      have htake : (List.replicate n w ++ [[]]).take m = List.replicate m w := by
        rw [List.take_append_of_le_length (by simpa using hmn), List.take_replicate,
          Nat.min_eq_left hmn]
      have hdrop : (List.replicate n w ++ [[]]).drop m = List.replicate (n - m) w ++ [[]] := by
        rw [List.drop_append_of_le_length (by simpa using hmn), List.drop_replicate]
      have hnb : nonBlank (join [space] (List.replicate m w)) = true := by
        simpa using nonBlank_join_replicate w hne hw m hm []
      have hwc : wordCount (join [space] (List.replicate m w)) = m := by
        simpa using wordCount_join_replicate w hne hw m [] (Or.inl rfl)
      have hrec := ih (n - m) (by omega)
      rw [htake, hdrop]
      simp only [List.map_cons, List.filter_cons, hnb, if_true, hwc, hrec]
      have hn0 : n ≠ 0 := by omega
      have hstep := ceilDiv_step n m hm hmn
      by_cases hz : n - m = 0
      · have hnm2 : n = m := by omega
        subst hnm2
        have hcd := ceilDiv_small n n (by omega) (Nat.le_refl _)
        simp [hn0, hcd]
      · have hpos := ceilDiv_pos (n - m) m (by omega) hm
        obtain ⟨k, hk⟩ : ∃ k, ceilDiv (n - m) m = k + 1 := ⟨ceilDiv (n - m) m - 1, by omega⟩
        have hlast : n - m - m * k = n - m * (k + 1) := by
          rw [Nat.mul_succ]
          omega
        simp [hz, hn0, hstep, hk, List.replicate_succ, hlast]

theorem join_map_join (sep : JSString) :
    ∀ (groups : List (List JSString)), (∀ g ∈ groups, g ≠ []) →
      join sep (groups.map (join sep)) = join sep groups.flatten := by
  intro groups
  induction groups with
  | nil => intro _; simp [join_nil]
  | cons g t ih =>
    intro hall
    have hg := hall g (by simp)
    have iht := ih (fun x hx => hall x (by simp [hx]))
    cases t with
    | nil => simp [join_singleton]
    | cons h r =>
      have hflat : (h :: r).flatten ≠ [] := by
        obtain ⟨y, ys, rfl⟩ := List.exists_cons_of_ne_nil (hall h (by simp))
        simp
      simp only [List.map_cons, List.flatten_cons] at iht ⊢
      rw [join_cons_cons, iht, join_append sep g (h ++ r.flatten) hg (by simpa using hflat)]

theorem gaps_of_join :
    ∀ (pieces : List JSString),
      ∃ (g0 : JSString) (gaps : List JSString),
        gaps.length = (pieces.filter nonBlank).length
        ∧ allWhitespace g0 ∧ (∀ g ∈ gaps, allWhitespace g)
        ∧ join [space] pieces = interleave g0 (pieces.filter nonBlank) gaps := by
  intro pieces
  induction pieces with
  | nil => exact ⟨[], [], by simp, by simp [allWhitespace], by simp, by simp [interleave, join_nil]⟩
  | cons p t ih =>
    obtain ⟨g0, gaps, hlen, hg0, hgaps, hjoin⟩ := ih
    have hsp : allWhitespace [space] := by
      intro c hc
      simp only [List.mem_singleton] at hc
      subst hc
      decide
    by_cases hp : nonBlank p = true
    · have hf : (p :: t).filter nonBlank = p :: t.filter nonBlank := by
        simp [List.filter_cons, hp]
      rw [hf]
      cases t with
      | nil =>
        refine ⟨[], [[]], by simp, by simp [allWhitespace], ?_, ?_⟩
        · intro g hg
          simp only [List.mem_singleton] at hg
          subst hg
          simp [allWhitespace]
        · simp [interleave, join_singleton]
      | cons q r =>
        refine ⟨[], ([space] ++ g0) :: gaps, ?_, by simp [allWhitespace], ?_, ?_⟩
        · simp only [List.length_cons, hlen]
        · intro g hg
          rcases List.mem_cons.1 hg with rfl | hg
          · intro c hc
            rcases List.mem_append.1 hc with h | h
            · exact hsp c h
            · exact hg0 c h
          · exact hgaps g hg
        · rw [join_cons_cons, hjoin]
          simp [interleave]
    · have hpf : nonBlank p = false := by simpa using hp
      have hf : (p :: t).filter nonBlank = t.filter nonBlank := by
        simp [List.filter_cons, hpf]
      rw [hf]
      have hblank : allWhitespace p := (nonBlank_eq_false_iff p).1 hpf
      cases t with
      | nil =>
        refine ⟨p, [], by simp, hblank, by simp, ?_⟩
        simp [interleave, join_singleton]
      | cons q r =>
        refine ⟨p ++ ([space] ++ g0), gaps, hlen, ?_, hgaps, ?_⟩
        · intro c hc
          rcases List.mem_append.1 hc with h | h
          · exact hblank c h
          · rcases List.mem_append.1 h with h | h
            · exact hsp c h
            · exact hg0 c h
        · rw [join_cons_cons, hjoin]
          simp [interleave]

/-! ## Further properties of chunkContent -/

/-- C15: for a content made of N >= 1 copies of a non-empty whitespace-free
word, each followed by one space, and a limit M >= 1, `chunkContent` returns
exactly ceil(N/M) chunks; every chunk but the last holds M words and the
last holds the remaining N - M * (ceil(N/M) - 1) words. -/
theorem chunkContent_repeated_word (w : JSString) (n m : Nat) (hne : w ≠ [])
    (hw : ∀ c ∈ w, isWhitespace c = false) (hn : 1 ≤ n) (hm : 1 ≤ m) :
    ∃ chunks, chunkContent (repeatedWord w n) m = some chunks
      ∧ chunks.length = ceilDiv n m
      ∧ chunks.map wordCount
          = List.replicate (ceilDiv n m - 1) m ++ [n - m * (ceilDiv n m - 1)] := by
  have hsp : space ∉ w := by
    intro h
    have := hw space h
    revert this
    decide
  have hcounts : (loopChunks (repeatedWord w n) m).map wordCount
      = List.replicate (ceilDiv n m - 1) m ++ [n - m * (ceilDiv n m - 1)] := by
    unfold loopChunks groupsOf
    rw [split_repeatedWord w hsp n]
    have := counts_repeated w hne hw m hm (n + 1) n (Nat.le_refl _)
    have hn0 : n ≠ 0 := by omega
    simpa [hn0] using this
  have hpos := ceilDiv_pos n m hn hm
  have hlen : (loopChunks (repeatedWord w n) m).length = ceilDiv n m := by
    have := congrArg List.length hcounts
    simp only [List.length_map, List.length_append, List.length_replicate,
      List.length_singleton] at this
    omega
  refine ⟨loopChunks (repeatedWord w n) m, ?_, hlen, hcounts⟩
  rw [chunkContent_eq _ m hm]
  simp [hlen, hpos]

theorem chunkContent_repeated_word_witness :
    ∃ chunks, chunkContent (repeatedWord (utf16 "word") 1200) 500 = some chunks
      ∧ chunks.length = 3
      ∧ chunks.map wordCount = [500, 500, 200] := by
  obtain ⟨chunks, h1, h2, h3⟩ := chunkContent_repeated_word (utf16 "word") 1200 500
    (by decide) (by decide) (by decide) (by decide)
  have hc : ceilDiv 1200 500 = 3 := by decide
  rw [hc] at h2 h3
  exact ⟨chunks, h1, h2, by rw [h3]; decide⟩

/-- C16: the chunks returned by `chunkContent` are contiguous, disjoint
pieces of the content, in order. For every content and every limit M >= 1
with result c1, ..., cn there are strings g0, ..., gn made of whitespace
only such that the content is g0 + c1 + g1 + c2 + ... + cn + gn. -/
theorem chunkContent_contiguous (content : JSString) (m : Nat) (hm : 1 ≤ m) :
    ∃ chunks, chunkContent content m = some chunks
      ∧ ∃ (g0 : JSString) (gaps : List JSString),
          gaps.length = chunks.length
          ∧ allWhitespace g0 ∧ (∀ g ∈ gaps, allWhitespace g)
          ∧ content = interleave g0 chunks gaps := by
  refine ⟨_, chunkContent_eq content m hm, ?_⟩
  split
  · obtain ⟨g0, gaps, hlen, hg0, hgaps, hjoin⟩ :=
      gaps_of_join ((groupsOf m (split space content)).map (join [space]))
    refine ⟨g0, gaps, hlen, hg0, hgaps, ?_⟩
    have hgroups : ∀ g ∈ groupsOf m (split space content), g ≠ [] :=
      fun g hg => (groupsAux_mem m hm _ _ g hg).1
    rw [join_map_join [space] _ hgroups, groupsOf_flatten m hm, join_split] at hjoin
    exact hjoin
  · refine ⟨[], [[]], rfl, by simp [allWhitespace], ?_, by simp [interleave]⟩
    intro g hg
    simp only [List.mem_singleton] at hg
    subst hg
    simp [allWhitespace]

theorem chunkContent_contiguous_witness :
    ∃ chunks, chunkContent (utf16 " one\ttwo  three four ") 2 = some chunks
      ∧ ∃ (g0 : JSString) (gaps : List JSString),
          gaps.length = chunks.length
          ∧ allWhitespace g0 ∧ (∀ g ∈ gaps, allWhitespace g)
          ∧ utf16 " one\ttwo  three four " = interleave g0 chunks gaps :=
  chunkContent_contiguous (utf16 " one\ttwo  three four ") 2 (by decide)

/-! ## Properties of the route handlers -/

theorem findOneAndUpdate_missing (id user : Nat) (body : NoteBody) (now : Nat) :
    ∀ (store : Store), (∀ n ∈ store, ¬ (n._id = id ∧ n.user = user)) →
      findOneAndUpdate id user body now store = (none, store) := by
  intro store
  induction store with
  | nil => intro _; rfl
  | cons n rest ih =>
    intro h
    have hn : ownedBy id user n = false := by
      have := h n (by simp)
      simp only [ownedBy, Bool.and_eq_false_iff, decide_eq_false_iff_not]
      tauto
    have hrest := ih (fun x hx => h x (by simp [hx]))
    simp [findOneAndUpdate, hn, hrest]

theorem findOneAndDelete_missing (id user : Nat) :
    ∀ (store : Store), (∀ n ∈ store, ¬ (n._id = id ∧ n.user = user)) →
      findOneAndDelete id user store = (none, store) := by
  intro store
  induction store with
  | nil => intro _; rfl
  | cons n rest ih =>
    intro h
    have hn : ownedBy id user n = false := by
      have := h n (by simp)
      simp only [ownedBy, Bool.and_eq_false_iff, decide_eq_false_iff_not]
      tauto
    have hrest := ih (fun x hx => h x (by simp [hx]))
    simp [findOneAndDelete, hn, hrest]

/-- C17: the search handler never returns all notes for an empty search.
For every store, a request with neither `q` nor `tag`, or with a `q` that is
empty or holds only whitespace and no `tag`, is answered with the empty
array. -/
theorem searchNotes_empty_search (regexTest : QueryValue → JSString → Bool)
    (tagTest : QueryValue → List JSString → Bool) (store : Store) (user : Nat)
    (q : QueryValue) (hq : q = .absent ∨ ∃ s, q = .str s ∧ allWhitespace s) :
    searchNotes regexTest tagTest store user q .absent = resJson (.notes []) := by
  rcases hq with rfl | ⟨s, rfl, hs⟩
  · simp [searchNotes, QueryValue.truthy]
  · have htrim : trim s = [] := (trim_eq_nil_iff s).2 hs
    simp [searchNotes, QueryValue.truthy, htrim]

theorem searchNotes_empty_search_witness :
    searchNotes (fun _ _ => true) (fun _ _ => true)
        [{ _id := 1, user := 7, title := utf16 "JavaScript Tutorial",
           content := utf16 "Learn JavaScript programming", tags := [utf16 "javascript"],
           summary := [utf16 "JS tutorial summary"], createdAt := 0, updatedAt := 0 }]
        7 (.str (utf16 "  \t")) .absent
      = { status := 200, body := .notes [] } :=
  searchNotes_empty_search (fun _ _ => true) (fun _ _ => true) _ 7 (.str (utf16 "  \t"))
    (Or.inr ⟨utf16 "  \t", rfl, by unfold allWhitespace; decide⟩)

/-- C18: updating or deleting a note that does not exist for the requester
is rejected without effect. For every store and every identifier such that
no stored note has both that identifier and the requesting user as owner,
`PUT /:id` and `DELETE /:id` answer with status 404 and the message
"Note not found", and the store is left as it was. -/
theorem put_delete_missing_note (endpoint : Endpoint) (now : Nat) (store : Store)
    (user id : Nat) (body : NoteBody)
    (hmissing : ∀ n ∈ store, ¬ (n._id = id ∧ n.user = user)) :
    putNote endpoint now store user id body
      = .returns ({ status := 404, body := .message (utf16 "Note not found") }, store)
    ∧ deleteNote store user id
      = ({ status := 404, body := .message (utf16 "Note not found") }, store) := by
  refine ⟨?_, ?_⟩
  · simp [putNote, findOneAndUpdate_missing id user body now store hmissing]
  · simp [deleteNote, findOneAndDelete_missing id user store hmissing]

theorem put_delete_missing_note_witness :
    putNote (fun _ _ => Reply.rejected) 5
        [{ _id := 1, user := 8, title := utf16 "Original Title",
           content := utf16 "Original content", tags := [utf16 "original"],
           summary := [utf16 "Original summary"], createdAt := 0, updatedAt := 0 }]
        7 1 { title := utf16 "Updated Title", content := utf16 "Updated content", tags := [] }
      = .returns ({ status := 404, body := .message (utf16 "Note not found") },
          [{ _id := 1, user := 8, title := utf16 "Original Title",
             content := utf16 "Original content", tags := [utf16 "original"],
             summary := [utf16 "Original summary"], createdAt := 0, updatedAt := 0 }])
    ∧ deleteNote
        [{ _id := 1, user := 8, title := utf16 "Original Title",
           content := utf16 "Original content", tags := [utf16 "original"],
           summary := [utf16 "Original summary"], createdAt := 0, updatedAt := 0 }]
        7 1
      = ({ status := 404, body := .message (utf16 "Note not found") },
          [{ _id := 1, user := 8, title := utf16 "Original Title",
             content := utf16 "Original content", tags := [utf16 "original"],
             summary := [utf16 "Original summary"], createdAt := 0, updatedAt := 0 }]) :=
  put_delete_missing_note (fun _ _ => Reply.rejected) 5 _ 7 1 _ (by decide)

/-- C19: a note whose data fails validation should be answered with status
400 and a body whose `success` member is false. The create handler has one
`catch` block for every error: for the test body with an empty title it
answers with status 500 and the body `{ message }`, and stores nothing. -/
theorem createNote_invalid_data_status (endpoint : Endpoint) (newId now : Nat)
    (store : Store) (user : Nat) :
    validNote invalidNoteData = false
    ∧ createNote validNote endpoint newId now store user invalidNoteData
      = .returns ({ status := 500, body := .failure .validationError }, store) := by
  refine ⟨by decide, ?_⟩
  have h : validNote invalidNoteData = false := by decide
  simp [createNote, h]

/-! ## Properties of exportToMarkdown -/

/-- C20: the exported text should be made of lines that end with a newline
character. The template literals of the source write `\\n`, so the text
holds a backslash and the letter n where each line should end: for one note
titled "Note 1" the result below has no newline character at all and does
not start with the line "# My Notes Export" followed by a newline. -/
theorem exportToMarkdown_has_no_newline :
    exportToMarkdown (fun _ => utf16 "11/6/2026") (utf16 "11/6/2026") [sampleExportNote]
      = utf16 ("# My Notes Export\\n\\n*Exported on: 11/6/2026*\\n\\n## Note 1\\n\\n"
          ++ "**Created:** 11/6/2026\\n**Tags:** tag1, tag2\\n\\nContent 1\\n\\n"
          ++ "### AI Summary\\n\\n- Summary 1\\n\\n---\\n\\n")
    ∧ newline ∉ exportToMarkdown (fun _ => utf16 "11/6/2026") (utf16 "11/6/2026")
        [sampleExportNote]
    ∧ (exportToMarkdown (fun _ => utf16 "11/6/2026") (utf16 "11/6/2026")
        [sampleExportNote]).take 18 ≠ utf16 "# My Notes Export\n" := by
  decide

/-! ## Properties of the tag field of the editor -/

theorem split_of_no_sep (sep : Nat) :
    ∀ (t : JSString), sep ∉ t → split sep t = [t] := by
  intro t
  induction t with
  | nil => intro _; rfl
  | cons c cs ih =>
    intro h
    have hc : c ≠ sep := by
      intro hcs
      exact h (by simp [hcs])
    have := ih (fun hm => h (List.mem_cons_of_mem _ hm))
    simp [split, hc, this, pushFront]

theorem split_join_comma_space :
    ∀ (t : JSString) (rest : List JSString), (∀ u ∈ t :: rest, comma ∉ u) →
      split comma (join [comma, space] (t :: rest)) = t :: rest.map (fun u => space :: u) := by
  intro t rest
  induction rest generalizing t with
  | nil =>
    intro h
    simpa [join_singleton] using split_of_no_sep comma t (h t (by simp))
  | cons u r ih =>
    intro h
    have ht := h t (by simp)
    have hrest := ih u (fun x hx => h x (List.mem_cons_of_mem _ hx))
    have hjoin : join [comma, space] (t :: u :: r)
        = t ++ comma :: (space :: join [comma, space] (u :: r)) := by
      simp [join_cons_cons]
    have hsc : space ≠ comma := by decide
    rw [hjoin, split_append_sep comma _ t ht]
    simp [split, hsc, hrest, pushFront]

theorem trim_space_cons (u : JSString) : trim (space :: u) = trim u := by
  have hs : isWhitespace space = true := by decide
  simp [trim, List.dropWhile_cons, hs]

theorem parseTags_join (tags : List JSString)
    (h : ∀ t ∈ tags, t ≠ [] ∧ comma ∉ t ∧ trim t = t) :
    parseTags (join [comma, space] tags) = tags := by
  have hkeep : ∀ l : List JSString, (∀ t ∈ l, t ≠ [] ∧ comma ∉ t ∧ trim t = t) →
      ((l.map (fun u => space :: u)).map trim).filter truthy = l := by
    intro l
    induction l with
    | nil => intro _; rfl
    | cons a r ih =>
      intro hl
      obtain ⟨hne, -, htrim⟩ := hl a (by simp)
      have htr : truthy a = true := by
        cases a with
        | nil => exact absurd rfl hne
        | cons x xs => rfl
      have := ih (fun t ht => hl t (List.mem_cons_of_mem _ ht))
      simp only [List.map_cons, trim_space_cons, htrim, List.filter_cons, htr, if_true, this]
  cases tags with
  | nil => decide
  | cons t rest =>
    obtain ⟨hne, -, htrim⟩ := h t (by simp)
    have htr : truthy t = true := by
      cases t with
      | nil => exact absurd rfl hne
      | cons x xs => rfl
    unfold parseTags
    rw [split_join_comma_space t rest (fun u hu => (h u hu).2.1)]
    simp only [List.map_cons, htrim, List.filter_cons, htr, if_true,
      hkeep rest (fun u hu => h u (List.mem_cons_of_mem _ hu))]

/-- C21: the tag parsing of the note editor undoes its tag display. For
every list of tags that are non-empty, free of commas and free of leading
and trailing whitespace, parsing the displayed string gives the list back;
and for every input string, no parsed tag is empty and none begins or ends
with a whitespace character. -/
theorem parseTags_tagsDisplay (tags : List JSString)
    (htags : ∀ t ∈ tags, t ≠ [] ∧ comma ∉ t ∧ noSurroundingWhitespace t)
    (input : JSString) :
    parseTags (tagsDisplay (some tags)) = tags
    ∧ ∀ t ∈ parseTags input, t ≠ [] ∧ noSurroundingWhitespace t := by
  refine ⟨?_, ?_⟩
  · apply parseTags_join
    intro t ht
    obtain ⟨h1, h2, h3, h4⟩ := htags t ht
    exact ⟨h1, h2, trim_eq_self_of_ends t h3 h4⟩
  · intro t ht
    obtain ⟨hmem, htruthy⟩ := List.mem_filter.1 ht
    obtain ⟨piece, -, rfl⟩ := List.mem_map.1 hmem
    refine ⟨?_, trim_head_not_whitespace piece, trim_getLast_not_whitespace piece⟩
    intro h0
    rw [h0] at htruthy
    revert htruthy
    decide

theorem parseTags_tagsDisplay_witness :
    parseTags (tagsDisplay (some [utf16 "work", utf16 "to do", utf16 "ideas"]))
      = [utf16 "work", utf16 "to do", utf16 "ideas"]
    ∧ ∀ t ∈ parseTags (utf16 " a ,, b\t, ,c"), t ≠ [] ∧ noSurroundingWhitespace t :=
  parseTags_tagsDisplay [utf16 "work", utf16 "to do", utf16 "ideas"]
    (by unfold noSurroundingWhitespace; decide) (utf16 " a ,, b\t, ,c")

end NotesApp
